import Mathlib

/-!
# `fixed_string.hpp`: a shallow embedding of `basic_fixed_string<Size, CharT>`

The class holds one member, `CharT buf[Size]`.  A buffer is modelled as a
`List CharT` whose length is the template parameter `Size`; every member
function takes `Size` explicitly, as the source does through the template.

* `CharT` is modelled by `Nat`; the terminator `'\0'` is `0`.
* `size_type` is `unsigned`: a 32-bit index.  Sums and differences of indices
  are taken modulo `2 ^ 32` (`add32`, `sub32`), `npos` is `2 ^ 32 - 1`.
* `std::string` is a `List CharT`; its `size()` is a 64-bit `size_t`.
* A constructor starts from storage with arbitrary content, so the
  constructors take the prior content of `buf` as an argument.
* A mutating member function returns the buffer after the call together with
  the exception that left it, if any (`Mut`).  A member function that also
  writes to its argument (`swap`, the move constructor and assignment)
  returns both buffers; the copy and move assignment take a flag for
  `this == &other`.
* An `iterator` is a `CharT*` into `buf`, modelled by its offset from
  `&buf[0]` as an `Int`.
* An access outside an array has no defined behaviour in the source.  The
  places that can reach one, the read through the source pointer of the
  pointer constructor, the scan for a terminator of `std::string(buf)` and the
  read of `buf` in `copy`, report it (`none`, `Error.undefined_behaviour`).
  Everywhere else the checks in front of the
  access keep the index inside the array whenever `1 ≤ Size` and the buffer
  has `Size` units, and the access is `List.getD` or `List.set`.
-/

namespace FixedString

/-! ## Machine arithmetic -/

/-- A character unit (`CharT`); the terminator is `0`. -/
abbrev CharT := Nat

/-- Sum of two `unsigned` (32-bit) values. -/
def add32 (a b : Nat) : Nat := (a + b) % 4294967296

/-- Difference of two `unsigned` (32-bit) values. -/
def sub32 (a b : Nat) : Nat := (a + 4294967296 - b % 4294967296) % 4294967296

/-- Difference of two `size_t` (64-bit) values. -/
def sub64 (a b : Nat) : Nat :=
  (a + 18446744073709551616 - b % 18446744073709551616) % 18446744073709551616

/-- The constant `static constexpr size_type npos = -1`. -/
def npos : Nat := 4294967295

/-- The source's `#define min(a, b) (b < a ? b : a)`. -/
def MIN (a b : Nat) : Nat := if b < a then b else a

/-- The errors a call can end with: the three exception types the source
throws, and an access outside an array (which is no exception: the source's
behaviour is undefined there). -/
inductive Error where
  | out_of_range
  | length_error
  | range_error
  | undefined_behaviour
  deriving DecidableEq

/-- The state a mutating member function leaves behind: the buffer after the
call, and the exception that left the call (`none` for a normal return). -/
structure Mut where
  buf : List CharT
  thrown : Option Error
  deriving DecidableEq

/-! ## Loops -/

/-- The loop `for (idx = start; ...; ++idx) s = body idx s` run for exactly
`n` iterations. -/
def forLoop {σ : Type} (body : Nat → σ → σ) : Nat → Nat → σ → σ
  | 0, _, s => s
  | n + 1, idx, s => forLoop body n (idx + 1) (body idx s)

/-- The loop `for (size_type idx = lo; idx < hi; ++idx) s = body idx s`, whose
bound `hi` does not change: it runs `hi - lo` times (not at all when
`hi ≤ lo`). -/
def for_range {σ : Type} (lo hi : Nat) (body : Nat → σ → σ) (s : σ) : σ :=
  forLoop body (hi - lo) lo s

/-! ## Size access -/

/-- The member `size()`: `return Size - 1;` in `unsigned` arithmetic. -/
def size (Size : Nat) : Nat := sub32 Size 1

/-- The member `length()`. -/
def length (Size : Nat) : Nat := sub32 Size 1

/-- The member `max_size()`. -/
def max_size (Size : Nat) : Nat := sub32 Size 1

/-! ## Construction and assignment -/

/-- The default constructor: every unit becomes the terminator. -/
def ctor_default (Size : Nat) (buf : List CharT) : List CharT :=
  for_range 0 Size (fun idx buf => buf.set idx 0) buf

/-- The constructor `basic_fixed_string(std::string const& str)`; `buf` is the
content of the storage before the constructor runs. -/
def ctor_string (Size : Nat) (buf : List CharT) (str : List CharT) : List CharT :=
  let buf := for_range 0 (MIN (size Size) str.length) (fun idx buf =>
    let buf := buf.set idx (str.getD idx 0)
    if idx = sub64 str.length 1 then
      buf.set (MIN (sub32 Size 1) (add32 idx 1)) 0
    else buf) buf
  buf.set (sub32 Size 1) 0

/-- The assignment `operator=(std::string const& str)`; `buf` is the content
of the string assigned to. -/
def assign_string (Size : Nat) (buf : List CharT) (str : List CharT) : List CharT :=
  let buf := for_range 0 (MIN (size Size) str.length) (fun idx buf =>
    let buf := buf.set idx (str.getD idx 0)
    if idx = sub64 str.length 1 then
      buf.set (MIN (sub32 Size 1) (add32 idx 1)) 0
    else buf) buf
  buf.set (sub32 Size 1) 0

/-! ## Conversion -/

/-- The library constructor `std::string(const CharT*)` applied to an array:
the units before the first terminator.  An array without a terminator is read
past its end, which is undefined (`none`). -/
def string_of_cstr : List CharT → Option (List CharT)
  | [] => none
  | c :: rest => if c = 0 then some [] else (string_of_cstr rest).map (fun t => c :: t)

/-- The conversion `operator std::string()`: `return std::string(buf);`. -/
def operator_string (buf : List CharT) : Option (List CharT) :=
  string_of_cstr buf

/-- The loop of `basic_fixed_string(const CharT* buffer)` with `n` iterations
left: `buf[idx] = buffer[idx]; if (buffer[idx] == '\0') break;`.  `buffer` is
the array the pointer points into; reading outside it is undefined. -/
def ctor_cstr.loop (buffer : List CharT) : Nat → Nat → List CharT → Option (List CharT)
  | 0, _, buf => some buf
  | n + 1, idx, buf =>
    match buffer[idx]? with
    | none => none
    | some c =>
      let buf := buf.set idx c
      if c = 0 then some buf else ctor_cstr.loop buffer n (idx + 1) buf

/-- The constructor `basic_fixed_string(const CharT* buffer)`:
`for (idx = 0; idx < Size; ++idx)` over the loop body above; `buf` is the
content of the storage before the constructor runs. -/
def ctor_cstr (Size : Nat) (buf : List CharT) (buffer : List CharT) : Option (List CharT) :=
  ctor_cstr.loop buffer (Size - 0) 0 buf

/-! ## Comparison -/

/-- The loop of `operator==` with `n` iterations left:
`if (buf[idx] != other.buf[idx]) return false; if (buf[idx] == '\0') return true;`
and `return true` after the loop. -/
def operator_eq.loop (buf other : List CharT) : Nat → Nat → Bool
  | 0, _ => true
  | n + 1, idx =>
    if buf.getD idx 0 ≠ other.getD idx 0 then false
    else if buf.getD idx 0 = 0 then true
    else operator_eq.loop buf other n (idx + 1)

/-- The comparison `operator==(basic_fixed_string const& other)`:
`for (idx = 0; idx < size(); ++idx)` over the loop body above. -/
def operator_eq (Size : Nat) (buf other : List CharT) : Bool :=
  operator_eq.loop buf other (size Size - 0) 0

/-! ## Concatenation -/

/-- The free function `operator+` on two fixed strings of capacities `N` and
`M`: `basic_fixed_string<N + M>(std::string(first.c_str()) + second.c_str())`.
`storage` is the content of the result object before its constructor runs. -/
def operator_plus (N M : Nat) (first second : List CharT) (storage : List CharT) :
    Option (List CharT) :=
  match string_of_cstr first, string_of_cstr second with
  | some s1, some s2 => some (ctor_string (add32 N M) storage (s1 ++ s2))
  | _, _ => none

/-! ## Utility functions -/

/-- The member `replace(size_type pos, size_type count, CharT c)`. -/
def replace_char (Size : Nat) (buf : List CharT) (pos count : Nat) (c : CharT) : Mut :=
  if add32 pos count > size Size then ⟨buf, some Error.out_of_range⟩
  else
    ⟨for_range pos (add32 pos count) (fun idx buf => buf.set idx c) buf, none⟩

/-- The member `replace(size_type pos, size_type count, std::string const& str)`. -/
def replace_string (Size : Nat) (buf : List CharT) (pos count : Nat) (str : List CharT) : Mut :=
  if str.length < count then ⟨buf, some Error.length_error⟩
  else if add32 pos count ≥ size Size then ⟨buf, some Error.out_of_range⟩
  else
    ⟨for_range pos (add32 pos count)
      (fun idx buf => buf.set idx (str.getD (sub32 idx pos) 0)) buf, none⟩

/-- The member `substr(size_type pos = 0, size_type count = npos)`; the
defaults are passed explicitly. -/
def substr (Size : Nat) (buf : List CharT) (pos count : Nat) : Except Error (List CharT) :=
  if add32 pos count > size Size then Except.error Error.out_of_range
  else
    Except.ok (for_range pos (add32 pos count)
      (fun idx result => result ++ [buf.getD idx 0]) [])

/-- A store `dest[i] = c` through the pointer `dest`, whose target is
modelled as the function from offsets to units. -/
def store (dest : Nat → CharT) (i : Nat) (c : CharT) : Nat → CharT :=
  fun j => if j = i then c else dest j

/-- The member `copy(CharT* dest, size_type count, size_type pos = 0) const`:
the returned count together with the content of `dest` after the call.  A read
of `buf` outside the array is undefined. -/
def copy (Size : Nat) (buf : List CharT) (dest : Nat → CharT) (count pos : Nat) :
    Except Error (Nat × (Nat → CharT)) :=
  if pos > size Size then Except.error Error.out_of_range
  else
    let count :=
      if count = npos ∨ add32 pos count > size Size then sub32 (sub32 (size Size) pos) 1
      else count
    let r := for_range pos (add32 pos count)
      (fun idx (st : Except Error (Nat → CharT)) =>
        match st, buf[idx]? with
        | Except.ok dest, some c => Except.ok (store dest (sub32 idx pos) c)
        | Except.ok _, none => Except.error Error.undefined_behaviour
        | Except.error e, _ => Except.error e)
      (Except.ok dest)
    match r with
    | Except.ok dest => Except.ok (count, store dest count 0)
    | Except.error e => Except.error e

/-! ## Logical content -/

/-- The logical content of a buffer, in the words of the specification: the
sequence of units before its first terminator. -/
def logical (buf : List CharT) : List CharT :=
  buf.takeWhile (fun c => decide (c ≠ 0))

/-! ## Construction and assignment from another fixed string -/

/-- The copy constructor `basic_fixed_string(basic_fixed_string const& other)`;
`buf` is the content of the storage before the constructor runs. -/
def ctor_copy (Size : Nat) (buf other : List CharT) : List CharT :=
  for_range 0 Size (fun idx buf => buf.set idx (other.getD idx 0)) buf

/-- The move constructor `basic_fixed_string(basic_fixed_string&& other)`: the
buffer constructed and the buffer of `other` after the call.  Each iteration
runs `buf[idx] = other.buf[idx]; other.buf[idx] = '\0';`. -/
def ctor_move (Size : Nat) (buf other : List CharT) : List CharT × List CharT :=
  for_range 0 Size
    (fun idx (st : List CharT × List CharT) =>
      let buf := st.1.set idx (st.2.getD idx 0)
      let other := st.2.set idx 0
      (buf, other))
    (buf, other)

/-- The converting constructor `template<unsigned N>
basic_fixed_string(basic_fixed_string<N, CharT> const& other)`, from a string
of capacity `N` into one of capacity `Size`. -/
def ctor_other (Size N : Nat) (buf other : List CharT) : List CharT :=
  let sz := MIN Size N
  let buf := for_range 0 sz (fun idx buf => buf.set idx (other.getD idx 0)) buf
  buf.set (sub32 (MIN N Size) 1) 0

/-- The copy assignment `operator=(basic_fixed_string const& other)`.  `aliased`
says whether `other` is the object assigned to (`this == &other`), in which
case the guard skips the loop. -/
def assign_copy (Size : Nat) (buf other : List CharT) (aliased : Bool) : List CharT :=
  if ! aliased then
    for_range 0 Size (fun idx buf => buf.set idx (other.getD idx 0)) buf
  else buf

/-- The move assignment `operator=(basic_fixed_string&& other)`: the buffer
assigned to and the buffer of `other` after the call.  `aliased` says whether
`other` is the object assigned to, in which case the guard skips the loop. -/
def assign_move (Size : Nat) (buf other : List CharT) (aliased : Bool) :
    List CharT × List CharT :=
  if ! aliased then
    for_range 0 Size
      (fun idx (st : List CharT × List CharT) =>
        let buf := st.1.set idx (st.2.getD idx 0)
        let other := st.2.set idx 0
        (buf, other))
      (buf, other)
  else (buf, other)

/-- The converting assignment `template<unsigned N>
operator=(basic_fixed_string<N, CharT> const& other)`. -/
def assign_other (Size N : Nat) (buf other : List CharT) : List CharT :=
  let sz := MIN Size N
  let buf := for_range 0 sz (fun idx buf => buf.set idx (other.getD idx 0)) buf
  buf.set (sub32 (MIN N Size) 1) 0

/-! ## Iterators -/

/-- An `iterator` is a `CharT*`; it is modelled by its offset from `&buf[0]`,
which is negative for a pointer in front of the array.  The member `begin()`
returns `&buf[0]`. -/
def begin_ : Int := 0

/-- The member `end()`: `&buf[size()]`. -/
def end_ (Size : Nat) : Int := (size Size : Int)

/-! ## Filling, replacing through iterators, swapping, searching -/

/-- The member `fill(CharT c)`. -/
def fill (Size : Nat) (buf : List CharT) (c : CharT) : List CharT :=
  for_range 0 (size Size) (fun idx buf => buf.set idx c) buf

/-- The member `clear()`: `fill('\0');`. -/
def clear (Size : Nat) (buf : List CharT) : List CharT :=
  fill Size buf 0

/-- The member `fill(size_type pos, CharT c)`. -/
def fill_pos (Size : Nat) (buf : List CharT) (pos : Nat) (c : CharT) : Mut :=
  if pos ≥ size Size then ⟨buf, some Error.out_of_range⟩
  else
    ⟨for_range pos (size Size) (fun idx buf => buf.set idx c) buf, none⟩

/-- The member `replace(iterator first, iterator last, CharT c)`.  Past the
guard `first ≤ last` holds, so the loop `for (it = first; it != last; ++it)`
visits the offsets `first .. last - 1`. -/
def replace_iter_char (Size : Nat) (buf : List CharT) (first last : Int) (c : CharT) : Mut :=
  if first < begin_ ∨ first ≥ end_ Size ∨ last < begin_ ∨ last > end_ Size ∨ last < first then
    ⟨buf, some Error.out_of_range⟩
  else
    ⟨for_range first.toNat last.toNat (fun it buf => buf.set it c) buf, none⟩

/-- The member `replace(iterator first, iterator last, std::string const& str)`.
`static_cast<unsigned>(std::distance(first, last))` is the difference of the
offsets modulo `2 ^ 32`; `std::distance(first, it)` is `it - first`. -/
def replace_iter_string (Size : Nat) (buf : List CharT) (first last : Int)
    (str : List CharT) : Mut :=
  if str.length < ((last - first) % 4294967296).toNat then
    ⟨buf, some Error.length_error⟩
  else if first < begin_ ∨ first ≥ end_ Size ∨ last < begin_ ∨ last > end_ Size
      ∨ last < first then
    ⟨buf, some Error.range_error⟩
  else
    ⟨for_range first.toNat last.toNat
      (fun it buf => buf.set it (str.getD (it - first.toNat) 0)) buf, none⟩

/-- The member `swap(basic_fixed_string& other)` on two distinct objects: the
buffer of `this` and the buffer of `other` after the call.  Each iteration
runs `std::swap(buf[idx], other.buf[idx])`. -/
def swap (Size : Nat) (buf other : List CharT) : List CharT × List CharT :=
  for_range 0 (size Size)
    (fun idx (st : List CharT × List CharT) =>
      (st.1.set idx (st.2.getD idx 0), st.2.set idx (st.1.getD idx 0)))
    (buf, other)

/-- The loop of `find(CharT ch, size_type pos)` with `n` iterations left:
`if (buf[idx] == ch) return idx;`, and `return npos` after the loop. -/
def find_char.loop (buf : List CharT) (ch : CharT) : Nat → Nat → Nat
  | 0, _ => npos
  | n + 1, idx => if buf.getD idx 0 = ch then idx else find_char.loop buf ch n (idx + 1)

/-- The member `find(CharT ch, size_type pos = 0) const`:
`for (idx = pos; idx < size(); ++idx)` over the loop body above. -/
def find_char (Size : Nat) (buf : List CharT) (ch : CharT) (pos : Nat) : Except Error Nat :=
  if pos ≥ size Size then Except.error Error.out_of_range
  else Except.ok (find_char.loop buf ch (size Size - pos) pos)

/-! ## The termination invariant -/

/-- The termination invariant, in the words of the specification: the unit at
index `Size - 1`, the terminator slot, is the terminator. -/
@[reducible] def terminated (Size : Nat) (buf : List CharT) : Prop :=
  buf.getD (Size - 1) 0 = 0

/-- The termination invariant of a string of capacity `Size`, in the words of
the specification: the buffer has its `Size` units and the unit stored at
index `Size - 1`, the terminator slot, is the terminator.  The unit is read
with `buf[Size - 1]?`, so a buffer without that unit does not satisfy it. -/
@[reducible] def terminator_stored (Size : Nat) (buf : List CharT) : Prop :=
  buf.length = Size ∧ buf[Size - 1]? = some 0

/-! ## `empty()` -/

/-- The member `empty()`: `static basic_fixed_string<Size, CharT> empty_string;
return *this == empty_string;`.  The static object lives in zero-initialised
storage and is built by the default constructor. -/
def empty (Size : Nat) (buf : List CharT) : Bool :=
  operator_eq Size buf (ctor_default Size (List.replicate Size 0))

/-! # Theorems -/

/-! ## Reading and writing arrays -/

theorem getD_set (l : List CharT) (i j : Nat) (a : CharT) :
    (l.set i a).getD j 0 = if j = i ∧ i < l.length then a else l.getD j 0 := by
  simp only [List.getD_eq_getElem?_getD, List.getElem?_set]
  by_cases h : i = j
  · subst h
    by_cases h2 : i < l.length
    · simp [h2]
    · simp [h2, List.getElem?_eq_none (Nat.le_of_not_lt h2)]
  · have h' : ¬ j = i := fun e => h e.symm
    simp [h, h']

theorem getD_set_self (l : List CharT) (i : Nat) (a : CharT) (h : i < l.length) :
    (l.set i a).getD i 0 = a := by
  rw [getD_set]; simp [h]

theorem getD_set_of_ne (l : List CharT) (i j : Nat) (a : CharT) (h : j ≠ i) :
    (l.set i a).getD j 0 = l.getD j 0 := by
  rw [getD_set]; simp [h]

theorem getElem?_eq_some_getD (l : List CharT) (i : Nat) (h : i < l.length) :
    l[i]? = some (l.getD i 0) := by
  simp [List.getD_eq_getElem?_getD, List.getElem?_eq_getElem h]

/-! ## The loop rule -/

/-- Loop invariant rule for `forLoop`: an invariant `P idx s` that holds on
entry and is carried across each of the `n` iterations holds on exit. -/
theorem forLoop_invariant {σ : Type} (body : Nat → σ → σ) (P : Nat → σ → Prop) :
    ∀ (n lo : Nat) (s : σ), P lo s →
      (∀ i s, lo ≤ i → i < lo + n → P i s → P (i + 1) (body i s)) →
      P (lo + n) (forLoop body n lo s) := by
  intro n
  induction n with
  | zero => intro lo s h _; simpa [forLoop] using h
  | succ n ih =>
    intro lo s h step
    have h1 : P (lo + 1) (body lo s) := step lo s (Nat.le_refl _) (by omega) h
    have := ih (lo + 1) (body lo s) h1 (fun i s hi hlt hp => step i s (by omega) (by omega) hp)
    simpa [forLoop, Nat.add_assoc, Nat.add_comm 1 n] using this

/-- Loop invariant rule for `for_range lo hi` with `lo ≤ hi`. -/
theorem for_range_invariant {σ : Type} (body : Nat → σ → σ) (P : Nat → σ → Prop)
    (lo hi : Nat) (s : σ) (hle : lo ≤ hi) (h0 : P lo s)
    (step : ∀ i s, lo ≤ i → i < hi → P i s → P (i + 1) (body i s)) :
    P hi (for_range lo hi body s) := by
  have := forLoop_invariant body P (hi - lo) lo s h0
    (fun i s hi1 hi2 hp => step i s hi1 (by omega) hp)
  have e : lo + (hi - lo) = hi := by omega
  rw [e] at this
  exact this

/-- A `for_range` whose bound is not above its start does nothing. -/
theorem for_range_empty {σ : Type} (body : Nat → σ → σ) (lo hi : Nat) (s : σ)
    (h : hi ≤ lo) : for_range lo hi body s = s := by
  have e : hi - lo = 0 := by omega
  simp [for_range, e, forLoop]

/-! ## Conversion to a growable string -/

/-- A buffer that starts with the units of `s`, none of them the terminator,
followed by a terminator converts to `s`. -/
theorem string_of_cstr_of_units : ∀ (s buf : List CharT),
    (∀ j, j < s.length → buf.getD j 0 = s.getD j 0) → (∀ c ∈ s, c ≠ 0) →
    buf.getD s.length 0 = 0 → s.length < buf.length → string_of_cstr buf = some s := by
  intro s
  induction s with
  | nil =>
    intro buf _ _ h0 hlen
    cases buf with
    | nil => simp at hlen
    | cons c rest =>
      have : c = 0 := by simpa using h0
      simp [string_of_cstr, this]
  | cons x t ih =>
    intro buf hpre hnz h0 hlen
    cases buf with
    | nil => simp at hlen
    | cons c rest =>
      have hc : c = x := by simpa using hpre 0 (by simp)
      have hx : x ≠ 0 := hnz x (by simp)
      have hrest : string_of_cstr rest = some t := by
        apply ih
        · intro j hj
          have := hpre (j + 1) (by simpa using hj)
          simpa using this
        · intro c hc; exact hnz c (by simp [hc])
        · simpa using h0
        · simpa using hlen
      simp [string_of_cstr, hc, hx, hrest]

/-- The units of `take m s` are those of `s` below `m`. -/
theorem getD_take (s : List CharT) (m j : Nat) (h : j < m) :
    (s.take m).getD j 0 = s.getD j 0 := by
  simp [List.getD_eq_getElem?_getD, List.getElem?_take, h]

/-! ## Construction from a growable string -/

/-- What the loop and the final store of the `std::string` constructor leave
in the buffer when the source string is not empty. -/
theorem string_body_units (Size : Nat) (buf str : List CharT)
    (hS : 1 ≤ Size) (hS2 : Size < 4294967296) (hlen : buf.length = Size)
    (hL : 1 ≤ str.length) (hL2 : str.length < 18446744073709551616) :
    (ctor_string Size buf str).length = Size ∧
    (∀ j, j < min (Size - 1) str.length →
      (ctor_string Size buf str).getD j 0 = str.getD j 0) ∧
    (ctor_string Size buf str).getD (min (Size - 1) str.length) 0 = 0 := by
  have hsize : size Size = Size - 1 := by simp only [size, sub32]; omega
  have hsub : sub32 Size 1 = Size - 1 := by simp only [sub32]; omega
  have hm : MIN (size Size) str.length = min (Size - 1) str.length := by
    simp only [MIN, hsize]; split <;> omega
  have hs64 : sub64 str.length 1 = str.length - 1 := by simp only [sub64]; omega
  have key := for_range_invariant
    (fun idx (buf : List CharT) =>
      let buf := buf.set idx (str.getD idx 0)
      if idx = sub64 str.length 1 then
        buf.set (MIN (sub32 Size 1) (add32 idx 1)) 0
      else buf)
    (fun i b => b.length = Size ∧ (∀ j, j < i → b.getD j 0 = str.getD j 0) ∧
      (i = str.length → b.getD str.length 0 = 0))
    0 (MIN (size Size) str.length) buf (Nat.zero_le _)
    ⟨hlen, fun j hj => absurd hj (Nat.not_lt_zero _), fun h => by omega⟩
    (by
      intro i b _ hi ⟨hb, hpre, _⟩
      rw [hm] at hi
      have hi1 : i < Size - 1 := lt_of_lt_of_le hi (Nat.min_le_left _ _)
      have hi2 : i < str.length := lt_of_lt_of_le hi (Nat.min_le_right _ _)
      have hadd : add32 i 1 = i + 1 := by simp only [add32]; omega
      have hM : MIN (sub32 Size 1) (add32 i 1) = i + 1 := by
        simp only [MIN, hsub, hadd]; split <;> omega
      simp only [hs64, hM]
      by_cases hlast : i = str.length - 1
      · rw [if_pos hlast]
        refine ⟨by simp [hb], ?_, ?_⟩
        · intro j hj
          rw [getD_set_of_ne _ _ _ _ (by omega)]
          by_cases hji : j = i
          · subst hji; rw [getD_set_self _ _ _ (by omega)]
          · rw [getD_set_of_ne _ _ _ _ hji]; exact hpre j (by omega)
        · intro _
          have e : str.length = i + 1 := by omega
          rw [e, getD_set_self _ _ _ (by simp; omega)]
      · rw [if_neg hlast]
        refine ⟨by simp [hb], ?_, ?_⟩
        · intro j hj
          by_cases hji : j = i
          · subst hji; rw [getD_set_self _ _ _ (by omega)]
          · rw [getD_set_of_ne _ _ _ _ hji]; exact hpre j (by omega)
        · intro h; omega)
  generalize hb : for_range 0 (MIN (size Size) str.length)
    (fun idx (buf : List CharT) =>
      let buf := buf.set idx (str.getD idx 0)
      if idx = sub64 str.length 1 then
        buf.set (MIN (sub32 Size 1) (add32 idx 1)) 0
      else buf) buf = b at key
  have hdef : ctor_string Size buf str = b.set (Size - 1) 0 := by
    rw [← hb, ← hsub]; rfl
  rw [hm] at key
  obtain ⟨klen, kpre, kterm⟩ := key
  rw [hdef]
  refine ⟨by simp [klen], ?_, ?_⟩
  · intro j hj
    have : j < Size - 1 := lt_of_lt_of_le hj (Nat.min_le_left _ _)
    rw [getD_set_of_ne _ _ _ _ (by omega)]
    exact kpre j hj
  · by_cases hc : str.length < Size - 1
    · have e : min (Size - 1) str.length = str.length := by omega
      rw [e] at kterm ⊢
      rw [getD_set_of_ne _ _ _ _ (by omega)]
      exact kterm rfl
    · have e : min (Size - 1) str.length = Size - 1 := by omega
      rw [e, getD_set_self _ _ _ (by rw [klen]; omega)]

/-- The assignment from a growable string runs the same statements as the
constructor from one. -/
theorem assign_string_eq_ctor_string (Size : Nat) (buf str : List CharT) :
    assign_string Size buf str = ctor_string Size buf str := rfl

/-- For a source string that is not empty and holds no terminator, the
constructor from a growable string leaves a buffer that converts back to the
first `min (Size - 1) L` units of the source. -/
theorem ctor_string_roundtrip (Size : Nat) (buf str : List CharT)
    (hS : 1 ≤ Size) (hS2 : Size < 4294967296) (hlen : buf.length = Size)
    (hL : 1 ≤ str.length) (hL2 : str.length < 18446744073709551616)
    (hnz : ∀ c ∈ str, c ≠ 0) :
    operator_string (ctor_string Size buf str) = some (str.take (min (Size - 1) str.length)) := by
  obtain ⟨klen, kpre, kterm⟩ := string_body_units Size buf str hS hS2 hlen hL hL2
  have htl : (str.take (min (Size - 1) str.length)).length = min (Size - 1) str.length := by
    simp
  apply string_of_cstr_of_units
  · intro j hj
    rw [htl] at hj
    rw [kpre j hj, getD_take _ _ _ hj]
  · intro c hc; exact hnz c (List.mem_of_mem_take hc)
  · rw [htl]; exact kterm
  · rw [htl, klen]; omega

/-! ## Construction from a null-terminated source -/

theorem source_unit_lt (s rest : List CharT) (idx : Nat) (h : idx < s.length) :
    (s ++ 0 :: rest)[idx]? = some (s.getD idx 0) := by
  rw [List.getElem?_append_left h]
  exact getElem?_eq_some_getD s idx h

theorem source_unit_end (s rest : List CharT) :
    (s ++ 0 :: rest)[s.length]? = some 0 := by
  rw [List.getElem?_append_right (Nat.le_refl _)]
  simp

theorem getD_mem (s : List CharT) (idx : Nat) (h : idx < s.length) : s.getD idx 0 ∈ s := by
  have : s.getD idx 0 = s[idx] := by
    simp [List.getD_eq_getElem?_getD, List.getElem?_eq_getElem h]
  rw [this]
  exact List.getElem_mem h

/-- The copy loop of the pointer constructor, started at `idx` inside the
source `s` followed by its terminator: it stops at the terminator, having
copied the units `idx .. L` and left the units below `idx` alone. -/
theorem ctor_cstr_loop_spec (s rest : List CharT) (hnz : ∀ c ∈ s, c ≠ 0) :
    ∀ (n idx : Nat) (buf : List CharT), idx ≤ s.length → s.length < idx + n →
      s.length < buf.length →
      ∃ r, ctor_cstr.loop (s ++ 0 :: rest) n idx buf = some r ∧ r.length = buf.length ∧
        (∀ j, idx ≤ j → j < s.length → r.getD j 0 = s.getD j 0) ∧
        r.getD s.length 0 = 0 ∧
        (∀ j, j < idx → r.getD j 0 = buf.getD j 0) ∧
        (∀ j, s.length < j → r.getD j 0 = buf.getD j 0) := by
  intro n
  induction n with
  | zero => intro idx buf h1 h2 _; omega
  | succ n ih =>
    intro idx buf h1 h2 h3
    by_cases hend : idx = s.length
    · subst hend
      refine ⟨buf.set s.length 0, ?_, by simp, ?_, ?_, ?_, ?_⟩
      · simp only [ctor_cstr.loop, source_unit_end s rest]
        exact if_pos trivial
      · intro j hj1 hj2; omega
      · exact getD_set_self _ _ _ h3
      · intro j hj; exact getD_set_of_ne _ _ _ _ (by omega)
      · intro j hj; exact getD_set_of_ne _ _ _ _ (by omega)
    · have hlt : idx < s.length := by omega
      have hc : s.getD idx 0 ≠ 0 := hnz _ (getD_mem s idx hlt)
      obtain ⟨r, hr, rlen, rpre, rterm, rlow, rhigh⟩ :=
        ih (idx + 1) (buf.set idx (s.getD idx 0)) (by omega) (by omega) (by simpa using h3)
      refine ⟨r, ?_, by simpa using rlen, ?_, rterm, ?_, ?_⟩
      · simp only [ctor_cstr.loop, source_unit_lt s rest idx hlt]
        rw [if_neg hc]
        exact hr
      · intro j hj1 hj2
        by_cases hji : j = idx
        · subst hji
          rw [rlow j (by omega), getD_set_self _ _ _ (by omega)]
        · exact rpre j (by omega) hj2
      · intro j hj
        rw [rlow j (by omega), getD_set_of_ne _ _ _ _ (by omega)]
      · intro j hj
        rw [rhigh j hj, getD_set_of_ne _ _ _ _ (by omega)]

/-- Lists with the same length and the same unit at every index are equal. -/
theorem ext_getD (a b : List CharT) (hlen : a.length = b.length)
    (h : ∀ j, j < a.length → a.getD j 0 = b.getD j 0) : a = b := by
  apply List.ext_getElem hlen
  intro j h1 h2
  have := h j h1
  simpa [List.getD_eq_getElem?_getD, List.getElem?_eq_getElem h1,
    List.getElem?_eq_getElem h2] using this

/-! ## Comparison against the logical content -/

theorem drop_eq_cons (l : List CharT) (i : Nat) (h : i < l.length) :
    l.drop i = l.getD i 0 :: l.drop (i + 1) := by
  rw [List.drop_eq_getElem_cons h]
  simp [List.getD_eq_getElem?_getD, List.getElem?_eq_getElem h]

theorem logical_cons_zero (t : List CharT) : logical (0 :: t) = [] := by
  simp [logical]

theorem logical_cons_ne (c : CharT) (t : List CharT) (h : c ≠ 0) :
    logical (c :: t) = c :: logical t := by
  simp [logical, h]

/-- A buffer that holds a terminator converts to its logical content. -/
theorem string_of_cstr_eq_logical : ∀ (buf : List CharT), 0 ∈ buf →
    string_of_cstr buf = some (logical buf) := by
  intro buf
  induction buf with
  | nil => intro h; simp at h
  | cons c t ih =>
    intro h
    by_cases hc : c = 0
    · subst hc; simp [string_of_cstr, logical_cons_zero]
    · have ht : 0 ∈ t := by
        rcases List.mem_cons.mp h with h1 | h1
        · exact absurd h1.symm hc
        · exact h1
      simp [string_of_cstr, hc, logical_cons_ne c t hc, ih ht]

/-- The comparison loop started at `idx`, with the units from `idx` on still
to compare: it answers whether the logical contents of the two rests agree. -/
theorem operator_eq_loop_iff (a b : List CharT) (hlen : a.length = b.length) :
    ∀ (n idx : Nat), idx + n + 1 = a.length → 0 ∈ a.drop idx → 0 ∈ b.drop idx →
      (operator_eq.loop a b n idx = true ↔ logical (a.drop idx) = logical (b.drop idx)) := by
  intro n
  induction n with
  | zero =>
    intro idx hn ha hb
    have hda : a.drop idx = [0] := by
      rw [drop_eq_cons a idx (by omega), List.drop_of_length_le (by omega)] at ha ⊢
      simp at ha; simp [← ha]
    have hdb : b.drop idx = [0] := by
      rw [drop_eq_cons b idx (by omega), List.drop_of_length_le (by omega)] at hb ⊢
      simp at hb; simp [← hb]
    simp [operator_eq.loop, hda, hdb]
  | succ n ih =>
    intro idx hn ha hb
    rw [drop_eq_cons a idx (by omega)] at ha ⊢
    rw [drop_eq_cons b idx (by omega)] at hb ⊢
    simp only [operator_eq.loop]
    by_cases hne : a.getD idx 0 = b.getD idx 0
    · rw [if_neg (not_not.mpr hne)]
      by_cases hz : a.getD idx 0 = 0
      · rw [if_pos hz]
        have hz' : b.getD idx 0 = 0 := by rw [← hne]; exact hz
        rw [hz, hz', logical_cons_zero, logical_cons_zero]
        simp
      · rw [if_neg hz]
        have hz' : b.getD idx 0 ≠ 0 := by rw [← hne]; exact hz
        have ha' : 0 ∈ a.drop (idx + 1) := by
          rcases List.mem_cons.mp ha with h1 | h1
          · exact absurd h1.symm hz
          · exact h1
        have hb' : 0 ∈ b.drop (idx + 1) := by
          rcases List.mem_cons.mp hb with h1 | h1
          · exact absurd h1.symm hz'
          · exact h1
        rw [ih (idx + 1) (by omega) ha' hb', logical_cons_ne _ _ hz, logical_cons_ne _ _ hz', hne]
        constructor
        · intro h; rw [h]
        · intro h; exact (List.cons.inj h).2
    · rw [if_pos hne]
      constructor
      · intro h; exact absurd h (by simp)
      · intro h
        exfalso
        by_cases hz : a.getD idx 0 = 0
        · have hz' : b.getD idx 0 ≠ 0 := fun e => hne (by rw [hz, e])
          rw [hz, logical_cons_zero, logical_cons_ne _ _ hz'] at h
          exact List.noConfusion h
        · by_cases hz' : b.getD idx 0 = 0
          · rw [hz', logical_cons_zero, logical_cons_ne _ _ hz] at h
            exact List.noConfusion h
          · rw [logical_cons_ne _ _ hz, logical_cons_ne _ _ hz'] at h
            exact hne (List.cons.inj h).1

/-! ## Concatenation of operands that are not both empty -/

theorem logical_ne_zero (a : List CharT) : ∀ c ∈ logical a, c ≠ 0 := by
  induction a with
  | nil => intro c hc; simp [logical] at hc
  | cons x t ih =>
    intro c hc
    by_cases hx : x = 0
    · subst hx; rw [logical_cons_zero] at hc; simp at hc
    · rw [logical_cons_ne x t hx] at hc
      rcases List.mem_cons.mp hc with h | h
      · rw [h]; exact hx
      · exact ih c h

theorem logical_length_lt (a : List CharT) (h : 0 ∈ a) : (logical a).length < a.length := by
  induction a with
  | nil => simp at h
  | cons x t ih =>
    by_cases hx : x = 0
    · subst hx; rw [logical_cons_zero]; simp
    · have ht : 0 ∈ t := by
        rcases List.mem_cons.mp h with h1 | h1
        · exact absurd h1.symm hx
        · exact h1
      rw [logical_cons_ne x t hx]
      simpa using ih ht

/-- Concatenation does what the specification says whenever the two logical
contents are not both empty: the result has capacity `N + M` and converts to
the content of the first operand followed by that of the second. -/
theorem operator_plus_of_nonempty (N M : Nat) (a b storage : List CharT)
    (hN : a.length = N) (hM : b.length = M) (hNM : N + M < 4294967296)
    (hst : storage.length = N + M) (ha : 0 ∈ a) (hb : 0 ∈ b)
    (hne : 1 ≤ (logical a ++ logical b).length) :
    ∃ r, operator_plus N M a b storage = some r ∧ r.length = N + M ∧
      operator_string r = some (logical a ++ logical b) := by
  have hla := logical_length_lt a ha
  have hlb := logical_length_lt b hb
  have hlen : (logical a ++ logical b).length = (logical a).length + (logical b).length := by
    simp
  have hadd : add32 N M = N + M := by simp only [add32]; omega
  have hnz : ∀ c ∈ logical a ++ logical b, c ≠ 0 := by
    intro c hc
    rcases List.mem_append.mp hc with h | h
    · exact logical_ne_zero a c h
    · exact logical_ne_zero b c h
  refine ⟨ctor_string (N + M) storage (logical a ++ logical b), ?_, ?_, ?_⟩
  · simp only [operator_plus, string_of_cstr_eq_logical a ha, string_of_cstr_eq_logical b hb,
      hadd]
  · exact (string_body_units (N + M) storage _ (by omega) hNM hst hne (by omega)).1
  · have := ctor_string_roundtrip (N + M) storage (logical a ++ logical b) (by omega) hNM hst
      hne (by omega) hnz
    rw [this]
    have e : min (N + M - 1) (logical a ++ logical b).length
        = (logical a ++ logical b).length := by omega
    rw [e, List.take_length]

/-! ## `copy` -/

/-- The copy loop of `copy`, run over indices that all lie inside the buffer:
it ends normally, having stored `buf[pos + k]` at `dest[k]` for each index
`pos + k` it visited, and left the rest of `dest` alone. -/
theorem copy_loop_spec (buf : List CharT) (dest : Nat → CharT) (pos hi : Nat)
    (hle : pos ≤ hi) (hhi : hi ≤ buf.length) (h32 : hi ≤ 4294967296) :
    ∃ d, for_range pos hi
        (fun idx (st : Except Error (Nat → CharT)) =>
          match st, buf[idx]? with
          | Except.ok dest, some c => Except.ok (store dest (sub32 idx pos) c)
          | Except.ok _, none => Except.error Error.undefined_behaviour
          | Except.error e, _ => Except.error e)
        (Except.ok dest) = Except.ok d ∧
      (∀ k, k < hi - pos → d k = buf.getD (pos + k) 0) ∧
      (∀ k, hi - pos ≤ k → d k = dest k) := by
  have key := for_range_invariant
    (fun idx (st : Except Error (Nat → CharT)) =>
      match st, buf[idx]? with
      | Except.ok dest, some c => Except.ok (store dest (sub32 idx pos) c)
      | Except.ok _, none => Except.error Error.undefined_behaviour
      | Except.error e, _ => Except.error e)
    (fun i st => ∃ d, st = Except.ok d ∧
      (∀ k, k < i - pos → d k = buf.getD (pos + k) 0) ∧
      (∀ k, i - pos ≤ k → d k = dest k))
    pos hi (Except.ok dest) hle
    ⟨dest, rfl, fun k hk => by omega, fun k _ => rfl⟩
    (by
      intro i st hi1 hi2 ⟨d, hst, hcopied, hrest⟩
      subst hst
      have hsub : sub32 i pos = i - pos := by simp only [sub32]; omega
      refine ⟨store d (i - pos) (buf.getD i 0), ?_, ?_, ?_⟩
      · simp only [getElem?_eq_some_getD buf i (by omega), hsub]
      · intro k hk
        by_cases hki : k = i - pos
        · subst hki
          have e : pos + (i - pos) = i := by omega
          simp [store, e]
        · have : k < i - pos := by omega
          simp only [store, if_neg hki]
          exact hcopied k this
      · intro k hk
        have hki : k ≠ i - pos := by omega
        simp only [store, if_neg hki]
        exact hrest k (by omega))
  exact key

/-! ## `replace` -/

/-- The store loop of `replace(pos, count, str)` over indices inside the
buffer: unit `pos + k` becomes `str[k]`, every unit outside `pos .. hi - 1`
keeps its value. -/
theorem replace_string_loop_spec (buf str : List CharT) (pos hi : Nat)
    (hle : pos ≤ hi) (hhi : hi ≤ buf.length) (h32 : hi ≤ 4294967296) :
    (for_range pos hi
      (fun idx (buf : List CharT) => buf.set idx (str.getD (sub32 idx pos) 0)) buf).length
        = buf.length ∧
    (∀ k, k < hi - pos →
      (for_range pos hi
        (fun idx (buf : List CharT) => buf.set idx (str.getD (sub32 idx pos) 0)) buf).getD
          (pos + k) 0 = str.getD k 0) ∧
    (∀ j, j < pos ∨ hi ≤ j →
      (for_range pos hi
        (fun idx (buf : List CharT) => buf.set idx (str.getD (sub32 idx pos) 0)) buf).getD j 0
          = buf.getD j 0) := by
  have key := for_range_invariant
    (fun idx (buf : List CharT) => buf.set idx (str.getD (sub32 idx pos) 0))
    (fun i b => b.length = buf.length ∧
      (∀ k, k < i - pos → b.getD (pos + k) 0 = str.getD k 0) ∧
      (∀ j, j < pos ∨ i ≤ j → b.getD j 0 = buf.getD j 0))
    pos hi buf hle
    ⟨rfl, fun k hk => by omega, fun j _ => rfl⟩
    (by
      intro i b hi1 hi2 ⟨hb, hset, hframe⟩
      have hsub : sub32 i pos = i - pos := by simp only [sub32]; omega
      simp only [hsub]
      refine ⟨by simp [hb], ?_, ?_⟩
      · intro k hk
        by_cases hki : k = i - pos
        · subst hki
          have e : pos + (i - pos) = i := by omega
          rw [e, getD_set_self _ _ _ (by omega)]
        · rw [getD_set_of_ne _ _ _ _ (by omega)]
          exact hset k (by omega)
      · intro j hj
        rw [getD_set_of_ne _ _ _ _ (by omega)]
        exact hframe j (by omega))
  exact key

/-- For a position inside the string and a 32-bit count, the bound check of
`copy` on the `unsigned` sum holds exactly when the sum exceeds `size()`
without passing `2 ^ 32 - 1`. -/
theorem copy_check_iff (Size pos count : Nat) (hpos : pos ≤ size Size)
    (hcount : count < 4294967296) :
    add32 pos count > size Size ↔ size Size < pos + count ∧ pos + count < 4294967296 := by
  have hs : size Size < 4294967296 := by simp only [size, sub32]; omega
  simp only [add32]
  omega

/-! ## The claims -/

/-- C1, evaluated where the code departs from it.  Assigning the empty
growable string to a capacity-8 string that holds "hello" runs the copy loop
zero times, so no terminator is stored at index 0: the buffer keeps "hello"
and converts back to "hello", not to the empty string.  The constructor from
the empty growable string likewise leaves the first seven units of the storage
as they were. -/
theorem assign_empty_string_keeps_content :
    assign_string 8 [104, 101, 108, 108, 111, 0, 0, 0] []
      = [104, 101, 108, 108, 111, 0, 0, 0] ∧
    operator_string (assign_string 8 [104, 101, 108, 108, 111, 0, 0, 0] [])
      = some [104, 101, 108, 108, 111] ∧
    (ctor_string 8 [120, 120, 120, 120, 120, 120, 120, 120] []).getD 0 0 = 120 ∧
    operator_string (ctor_string 8 [120, 120, 120, 120, 120, 120, 120, 120] [])
      = some [120, 120, 120, 120, 120, 120, 120] := by
  decide

/-- C2: round trip through the constructor from a null-terminated source.  For
a sequence `s` shorter than the capacity `Size` (so `Size ≥ 1`) that holds no
terminator, followed in memory by its terminator and anything after it,
constructing into storage of any prior content succeeds, and converting the
result to a growable string yields exactly `s`. -/
theorem ctor_cstr_roundtrip (Size : Nat) (buf s rest : List CharT)
    (hlen : buf.length = Size) (hs : s.length < Size) (hnz : ∀ c ∈ s, c ≠ 0) :
    ∃ r, ctor_cstr Size buf (s ++ 0 :: rest) = some r ∧ r.length = Size ∧
      operator_string r = some s := by
  obtain ⟨r, hr, rlen, rpre, rterm, _, _⟩ :=
    ctor_cstr_loop_spec s rest hnz Size 0 buf (Nat.zero_le _) (by omega) (by omega)
  refine ⟨r, hr, by omega, ?_⟩
  exact string_of_cstr_of_units s r (fun j hj => rpre j (Nat.zero_le _) hj) hnz rterm
    (by omega)

/-- C2 at a concrete input: "hi" into a capacity-8 string. -/
theorem ctor_cstr_roundtrip_witness :
    ([120, 120, 120, 120, 120, 120, 120, 120] : List CharT).length = 8 ∧
    ([104, 105] : List CharT).length < 8 ∧ (∀ c ∈ ([104, 105] : List CharT), c ≠ 0) ∧
    ∃ r, ctor_cstr 8 [120, 120, 120, 120, 120, 120, 120, 120] ([104, 105] ++ 0 :: [55])
        = some r ∧ r.length = 8 ∧ operator_string r = some [104, 105] :=
  ⟨by decide, by decide, by decide,
    ctor_cstr_roundtrip 8 [120, 120, 120, 120, 120, 120, 120, 120] [104, 105] [55]
      (by decide) (by decide) (by decide)⟩

/-- C3: for two buffers of the same capacity `Size` that each hold a
terminator, `operator==` returns true exactly when their logical contents (the
units before the first terminator) are equal. -/
theorem operator_eq_iff_logical (Size : Nat) (a b : List CharT)
    (hS2 : Size < 4294967296) (ha : a.length = Size) (hb : b.length = Size)
    (hta : 0 ∈ a) (htb : 0 ∈ b) :
    operator_eq Size a b = true ↔ logical a = logical b := by
  have hpos : 1 ≤ Size := by
    cases a with
    | nil => simp at hta
    | cons c t => simp at ha; omega
  have hsize : size Size - 0 = Size - 1 := by simp only [size, sub32]; omega
  have := operator_eq_loop_iff a b (by omega) (Size - 1) 0 (by omega) (by simpa using hta)
    (by simpa using htb)
  simpa [operator_eq, hsize] using this

/-- C3 at a concrete input: "ab" followed by a terminator and different
garbage compares equal. -/
theorem operator_eq_iff_logical_witness :
    (4 : Nat) < 4294967296 ∧ ([97, 98, 0, 9] : List CharT).length = 4 ∧
    ([97, 98, 0, 7] : List CharT).length = 4 ∧
    (0 ∈ ([97, 98, 0, 9] : List CharT)) ∧ (0 ∈ ([97, 98, 0, 7] : List CharT)) ∧
    (operator_eq 4 [97, 98, 0, 9] [97, 98, 0, 7] = true ↔
      logical [97, 98, 0, 9] = logical [97, 98, 0, 7]) :=
  ⟨by decide, by decide, by decide, by decide, by decide,
    operator_eq_iff_logical 4 [97, 98, 0, 9] [97, 98, 0, 7]
      (by decide) (by decide) (by decide) (by decide) (by decide)⟩

/-- C4, evaluated where the code departs from it.  Concatenating two
capacity-8 strings whose logical contents are both empty constructs the
capacity-16 result from the empty growable string; the constructor stores only
the terminator at index 15, so the first fifteen units are whatever the
storage held and the result does not convert to the empty string. -/
theorem operator_plus_empty_operands :
    operator_string [0, 0, 0, 0, 0, 0, 0, 0] = some [] ∧
    operator_plus 8 8 [0, 0, 0, 0, 0, 0, 0, 0] [0, 0, 0, 0, 0, 0, 0, 0]
        [120, 120, 120, 120, 120, 120, 120, 120, 120, 120, 120, 120, 120, 120, 120, 120]
      = some [120, 120, 120, 120, 120, 120, 120, 120, 120, 120, 120, 120, 120, 120, 120, 0] ∧
    operator_string
        [120, 120, 120, 120, 120, 120, 120, 120, 120, 120, 120, 120, 120, 120, 120, 0]
      = some [120, 120, 120, 120, 120, 120, 120, 120, 120, 120, 120, 120, 120, 120, 120] := by
  decide

/-- C5, evaluated where the code departs from it.  On a capacity-8 string
holding "hello", `substr()` with both defaults (`pos = 0`, `count = npos`)
throws `out_of_range`, because `0 + npos` exceeds `size()`; and
`substr(1, npos)` returns the empty string, because `1 + npos` wraps to `0`. -/
theorem substr_default_count :
    substr 8 [104, 101, 108, 108, 111, 0, 0, 0] 0 npos = Except.error Error.out_of_range ∧
    substr 8 [104, 101, 108, 108, 111, 0, 0, 0] 1 npos = Except.ok [] :=
  ⟨rfl, rfl⟩

/-- C6, evaluated where the code departs from it.  On a capacity-8 string
with `pos = size() = 7` and `count = npos`, `copy` recomputes the count as
`7 - 7 - 1`, which wraps to `2 ^ 32 - 1`; it copies nothing (`dest[0]` keeps
its value), stores a terminator at `dest[2 ^ 32 - 1]` and returns
`2 ^ 32 - 1`, so `pos + r` is far above `size()`. -/
theorem copy_at_size_returns_wrapped_count :
    ∃ d, copy 8 [104, 101, 108, 108, 111, 0, 0, 0] (fun _ => 120) npos 7
        = Except.ok (4294967295, d) ∧
      d 0 = 120 ∧ d 4294967295 = 0 ∧ ¬ (7 + 4294967295 ≤ size 8) :=
  ⟨_, rfl, by decide, by decide, by decide⟩

/-- C7, evaluated where the code departs from it.  On a capacity-8 string
holding "hello", `pos = 3` is below `size() = 7` and `count = 2 ^ 32 - 2` is
not `npos`, and their sum exceeds `size()`.  The source compares the
`unsigned` sum, which wraps to `1`, so the count is not recomputed: `copy`
copies nothing (`dest[0]` keeps its value), stores a terminator at
`dest[2 ^ 32 - 2]` and returns `2 ^ 32 - 2`, not `size() - pos - 1 = 3`. -/
theorem copy_wrapped_sum_keeps_count :
    (3 < size 8 ∧ (4294967294 : Nat) < 4294967296 ∧ 4294967294 ≠ npos ∧
      3 + 4294967294 > size 8 ∧ add32 3 4294967294 = 1) ∧
    size 8 - 3 - 1 = 3 ∧
    ∃ d, copy 8 [104, 101, 108, 108, 111, 0, 0, 0] (fun _ => 120) 4294967294 3
        = Except.ok (4294967294, d) ∧
      d 0 = 120 ∧ d 4294967294 = 0 ∧ 4294967294 ≠ size 8 - 3 - 1 :=
  ⟨by decide, by decide, _, rfl, by decide, by decide, by decide⟩

/-- The sentinel path of `copy` as the source takes it.  For a string of
capacity `Size`, a position `pos < size()` and a count that is `npos` or whose
`unsigned` sum with `pos` exceeds `size()` (by `copy_check_iff`: a sum above
`size()` that does not pass `2 ^ 32 - 1`), `copy` returns exactly
`size() - pos - 1`, has stored buffer unit `pos + i` at `dest[i]` for every
`i < size() - pos - 1` and a terminator at `dest[size() - pos - 1]`, and has
left the rest of `dest` alone. -/
theorem copy_sentinel_path (Size : Nat) (buf : List CharT) (dest : Nat → CharT)
    (count pos : Nat) (hS : 1 ≤ Size) (hS2 : Size < 4294967296) (hlen : buf.length = Size)
    (hpos : pos < size Size) (hsent : count = npos ∨ add32 pos count > size Size) :
    ∃ d, copy Size buf dest count pos = Except.ok (size Size - pos - 1, d) ∧
      (∀ i, i < size Size - pos - 1 → d i = buf.getD (pos + i) 0) ∧
      d (size Size - pos - 1) = 0 ∧
      (∀ i, size Size - pos - 1 < i → d i = dest i) := by
  have hsize : size Size = Size - 1 := by simp only [size, sub32]; omega
  rw [hsize] at hpos hsent ⊢
  have hc : sub32 (sub32 (Size - 1) pos) 1 = Size - 1 - pos - 1 := by
    simp only [sub32]; omega
  have ha : add32 pos (Size - 1 - pos - 1) = Size - 1 - 1 := by
    simp only [add32]; omega
  obtain ⟨d, hd, hcopied, hrest⟩ :=
    copy_loop_spec buf dest pos (Size - 1 - 1) (by omega) (by omega) (by omega)
  have hk : Size - 1 - 1 - pos = Size - 1 - pos - 1 := by omega
  rw [hk] at hcopied hrest
  refine ⟨store d (Size - 1 - pos - 1) 0, ?_, ?_, ?_, ?_⟩
  · unfold copy
    rw [hsize, if_neg (by omega)]
    simp only [if_pos hsent, hc, ha, hd]
  · intro i hi
    have hne : i ≠ Size - 1 - pos - 1 := by omega
    simp only [store, if_neg hne]
    exact hcopied i hi
  · simp [store]
  · intro i hi
    have hne : i ≠ Size - 1 - pos - 1 := by omega
    simp only [store, if_neg hne]
    exact hrest i (by omega)

/-- The sentinel path at the input of the specification: a capacity-8 string
holding "hello", `count = npos`, `pos = 0`; the returned value is `6`. -/
theorem copy_sentinel_path_witness :
    1 ≤ 8 ∧ 8 < 4294967296 ∧ ([104, 101, 108, 108, 111, 0, 0, 0] : List CharT).length = 8 ∧
    0 < size 8 ∧ (npos = npos ∨ add32 0 npos > size 8) ∧ size 8 - 0 - 1 = 6 ∧
    ∃ d, copy 8 [104, 101, 108, 108, 111, 0, 0, 0] (fun _ => 120) npos 0
        = Except.ok (size 8 - 0 - 1, d) ∧
      (∀ i, i < size 8 - 0 - 1 → d i = ([104, 101, 108, 108, 111, 0, 0, 0] : List CharT).getD (0 + i) 0) ∧
      d (size 8 - 0 - 1) = 0 ∧
      (∀ i, size 8 - 0 - 1 < i → d i = (fun _ => 120) i) :=
  ⟨by decide, by decide, by decide, by decide, Or.inl rfl, by decide,
    copy_sentinel_path 8 [104, 101, 108, 108, 111, 0, 0, 0] (fun _ => 120) npos 0
      (by decide) (by decide) (by decide) (by decide) (Or.inl rfl)⟩

/-- C8: strong exception safety of `replace(pos, count, str)`.  Whenever `str`
is shorter than `count`, whatever `pos` and the capacity are, the call throws
`length_error` and the buffer after the call is the buffer before it. -/
theorem replace_string_length_error (Size : Nat) (buf str : List CharT) (pos count : Nat)
    (hshort : str.length < count) :
    (replace_string Size buf pos count str).thrown = some Error.length_error ∧
    (replace_string Size buf pos count str).buf = buf := by
  unfold replace_string
  rw [if_pos hshort]
  exact ⟨rfl, rfl⟩

/-- C8 at a concrete input: a source of two units for a count of five, at a
position that is out of bounds as well. -/
theorem replace_string_length_error_witness :
    ([1, 2] : List CharT).length < 5 ∧
    (replace_string 8 [104, 101, 108, 108, 111, 0, 0, 0] 6 5 [1, 2]).thrown
      = some Error.length_error ∧
    (replace_string 8 [104, 101, 108, 108, 111, 0, 0, 0] 6 5 [1, 2]).buf
      = [104, 101, 108, 108, 111, 0, 0, 0] :=
  ⟨by decide, replace_string_length_error 8 [104, 101, 108, 108, 111, 0, 0, 0] [1, 2] 6 5
    (by decide)⟩

/-- C9: frame of a successful `replace(pos, count, str)`.  For a string of
capacity `Size`, a source with at least `count` units and `pos + count <
size()`, the call returns normally, the buffer keeps its length, unit
`pos + i` is `str[i]` for every `i < count`, and every other unit (the
terminator slot `Size - 1` among them) keeps its value. -/
theorem replace_string_in_range (Size : Nat) (buf str : List CharT) (pos count : Nat)
    (hS : 1 ≤ Size) (hS2 : Size < 4294967296) (hlen : buf.length = Size)
    (hstr : count ≤ str.length) (hrange : pos + count < size Size) :
    (replace_string Size buf pos count str).thrown = none ∧
    (replace_string Size buf pos count str).buf.length = Size ∧
    (∀ i, i < count →
      (replace_string Size buf pos count str).buf.getD (pos + i) 0 = str.getD i 0) ∧
    (∀ j, j < pos ∨ pos + count ≤ j →
      (replace_string Size buf pos count str).buf.getD j 0 = buf.getD j 0) := by
  have hsize : size Size = Size - 1 := by simp only [size, sub32]; omega
  rw [hsize] at hrange
  have ha : add32 pos count = pos + count := by simp only [add32]; omega
  obtain ⟨klen, kset, kframe⟩ :=
    replace_string_loop_spec buf str pos (pos + count) (by omega) (by omega) (by omega)
  have hk : pos + count - pos = count := by omega
  rw [hk] at kset
  unfold replace_string
  rw [if_neg (by omega), hsize, ha, if_neg (by omega)]
  exact ⟨rfl, by rw [klen, hlen], kset, kframe⟩

/-- C9 at a concrete input: "XY" written over units 1 and 2 of "hello" in a
capacity-8 string. -/
theorem replace_string_in_range_witness :
    1 ≤ 8 ∧ 8 < 4294967296 ∧ ([104, 101, 108, 108, 111, 0, 0, 0] : List CharT).length = 8 ∧
    2 ≤ ([88, 89] : List CharT).length ∧ 1 + 2 < size 8 ∧
    ((replace_string 8 [104, 101, 108, 108, 111, 0, 0, 0] 1 2 [88, 89]).thrown = none ∧
    (replace_string 8 [104, 101, 108, 108, 111, 0, 0, 0] 1 2 [88, 89]).buf.length = 8 ∧
    (∀ i, i < 2 →
      (replace_string 8 [104, 101, 108, 108, 111, 0, 0, 0] 1 2 [88, 89]).buf.getD (1 + i) 0
        = ([88, 89] : List CharT).getD i 0) ∧
    (∀ j, j < 1 ∨ 1 + 2 ≤ j →
      (replace_string 8 [104, 101, 108, 108, 111, 0, 0, 0] 1 2 [88, 89]).buf.getD j 0
        = ([104, 101, 108, 108, 111, 0, 0, 0] : List CharT).getD j 0)) :=
  ⟨by decide, by decide, by decide, by decide, by decide,
    replace_string_in_range 8 [104, 101, 108, 108, 111, 0, 0, 0] [88, 89] 1 2
      (by decide) (by decide) (by decide) (by decide) (by decide)⟩

/-- C10, evaluated where the code departs from it.  On a capacity-8 string,
`replace(1, npos, c)` computes `1 + npos` in `unsigned` arithmetic, where it
wraps to `0`; the bound check `0 > size()` is false, so nothing is thrown: the
call returns normally with the buffer unchanged.  The same happens for
`pos = npos`, `count = 1`. -/
theorem replace_char_wrapped_sum_not_rejected :
    add32 1 npos = 0 ∧
    replace_char 8 [104, 101, 108, 108, 111, 0, 0, 0] 1 npos 120
      = ⟨[104, 101, 108, 108, 111, 0, 0, 0], none⟩ ∧
    replace_char 8 [104, 101, 108, 108, 111, 0, 0, 0] npos 1 120
      = ⟨[104, 101, 108, 108, 111, 0, 0, 0], none⟩ := by
  decide

/-! ## Loops that store at the loop index -/

/-- A loop `for (idx = lo; idx < hi; ++idx) buf[idx] = g idx` keeps the length
of the buffer, leaves every unit outside `lo .. hi - 1` alone and, when the
indices lie inside the buffer, sets unit `j` to `g j` for `lo ≤ j < hi`. -/
theorem set_loop_spec (g : Nat → CharT) (buf : List CharT) (lo hi : Nat) :
    (for_range lo hi (fun idx (b : List CharT) => b.set idx (g idx)) buf).length = buf.length ∧
    (hi ≤ buf.length → ∀ j, lo ≤ j → j < hi →
      (for_range lo hi (fun idx (b : List CharT) => b.set idx (g idx)) buf).getD j 0 = g j) ∧
    (∀ j, j < lo ∨ hi ≤ j →
      (for_range lo hi (fun idx (b : List CharT) => b.set idx (g idx)) buf).getD j 0
        = buf.getD j 0) := by
  by_cases hle : lo ≤ hi
  · have key := for_range_invariant
      (fun idx (b : List CharT) => b.set idx (g idx))
      (fun i b => b.length = buf.length ∧
        (hi ≤ buf.length → ∀ j, lo ≤ j → j < i → b.getD j 0 = g j) ∧
        (∀ j, j < lo ∨ i ≤ j → b.getD j 0 = buf.getD j 0))
      lo hi buf hle
      ⟨rfl, fun _ j h1 h2 => by omega, fun j _ => rfl⟩
      (by
        intro i b hi1 hi2 ⟨hb, hset, hframe⟩
        refine ⟨by simp [hb], ?_, ?_⟩
        · intro hhi j hj1 hj2
          by_cases hji : j = i
          · subst hji
            exact getD_set_self _ _ _ (by omega)
          · show (b.set i (g i)).getD j 0 = g j
            rw [getD_set_of_ne _ _ _ _ hji]
            exact hset hhi j hj1 (by omega)
        · intro j hj
          show (b.set i (g i)).getD j 0 = buf.getD j 0
          rw [getD_set_of_ne _ _ _ _ (by omega)]
          exact hframe j (by omega))
    exact key
  · rw [for_range_empty _ lo hi buf (by omega)]
    exact ⟨rfl, fun _ j h1 h2 => by omega, fun j _ => rfl⟩

/-! ## `fill(pos, c)` and `find(ch, pos)` -/

theorem size_eq (Size : Nat) (hS : 1 ≤ Size) (hS2 : Size < 4294967296) :
    size Size = Size - 1 := by
  simp only [size, sub32]; omega

/-- The search loop started at `idx` with `n` iterations left either reaches
the end without a match and returns `npos`, or returns the first matching
index. -/
theorem find_char_loop_spec (buf : List CharT) (ch : CharT) :
    ∀ (n idx : Nat),
      (find_char.loop buf ch n idx = npos ∧
        ∀ j, idx ≤ j → j < idx + n → buf.getD j 0 ≠ ch) ∨
      (idx ≤ find_char.loop buf ch n idx ∧ find_char.loop buf ch n idx < idx + n ∧
        buf.getD (find_char.loop buf ch n idx) 0 = ch ∧
        ∀ j, idx ≤ j → j < find_char.loop buf ch n idx → buf.getD j 0 ≠ ch) := by
  intro n
  induction n with
  | zero =>
    intro idx
    left
    exact ⟨rfl, fun j h1 h2 => by omega⟩
  | succ n ih =>
    intro idx
    by_cases hm : buf.getD idx 0 = ch
    · right
      have e : find_char.loop buf ch (n + 1) idx = idx := by
        simp only [find_char.loop]; rw [if_pos hm]
      rw [e]
      exact ⟨Nat.le_refl _, by omega, hm, fun j h1 h2 => by omega⟩
    · have e : find_char.loop buf ch (n + 1) idx = find_char.loop buf ch n (idx + 1) := by
        simp only [find_char.loop]; rw [if_neg hm]
      rw [e]
      rcases ih (idx + 1) with ⟨h1, h2⟩ | ⟨h1, h2, h3, h4⟩
      · left
        refine ⟨h1, ?_⟩
        intro j hj1 hj2
        by_cases hji : j = idx
        · subst hji; exact hm
        · exact h2 j (by omega) (by omega)
      · right
        refine ⟨by omega, by omega, h3, ?_⟩
        intro j hj1 hj2
        by_cases hji : j = idx
        · subst hji; exact hm
        · exact h4 j (by omega) hj2

/-! ## The iterator overloads of `replace` against the positional ones -/

/-- Two loop bodies that agree on every index the loop visits give the same
result. -/
theorem forLoop_congr {σ : Type} (f g : Nat → σ → σ) :
    ∀ (n lo : Nat) (s : σ), (∀ i s, lo ≤ i → i < lo + n → f i s = g i s) →
      forLoop f n lo s = forLoop g n lo s := by
  intro n
  induction n with
  | zero => intro lo s _; rfl
  | succ n ih =>
    intro lo s h
    simp only [forLoop]
    rw [h lo s (Nat.le_refl _) (by omega)]
    exact ih (lo + 1) (g lo s) (fun i s h1 h2 => h i s (by omega) (by omega))

theorem for_range_congr {σ : Type} (f g : Nat → σ → σ) (lo hi : Nat) (s : σ)
    (h : ∀ i s, lo ≤ i → i < hi → f i s = g i s) :
    for_range lo hi f s = for_range lo hi g s := by
  unfold for_range
  exact forLoop_congr f g (hi - lo) lo s (fun i s h1 h2 => h i s h1 (by omega))

/-- Away from the empty range at `pos = size()`, the iterator overload of
replace-by-character called on `begin() + pos`, `begin() + pos + count` ends
exactly as the positional overload called on `pos`, `count`. -/
theorem replace_iter_char_eq_replace_char (Size : Nat) (buf : List CharT) (pos count : Nat)
    (c : CharT) (hS : 1 ≤ Size) (hS2 : Size < 4294967296) (hle : pos + count ≤ Size)
    (hne : ¬ (pos = size Size ∧ count = 0)) :
    replace_iter_char Size buf (begin_ + (pos : Int)) (begin_ + (pos : Int) + (count : Int)) c
      = replace_char Size buf pos count c := by
  have hsize := size_eq Size hS hS2
  have ha : add32 pos count = pos + count := by simp only [add32]; omega
  have hb : begin_ + (pos : Int) = (pos : Int) := by simp [begin_]
  have hl : (pos : Int) + (count : Int) = ((pos + count : Nat) : Int) := by push_cast; rfl
  unfold replace_iter_char replace_char
  rw [ha, hb, hl]
  simp only [begin_, end_, hsize]
  by_cases hout : pos + count > Size - 1
  · rw [if_pos hout, if_pos (by omega)]
  · rw [if_neg hout, if_neg (by omega)]
    simp only [Int.toNat_ofNat]

/-- Strictly inside the string (`pos + count < size()`), and for a source
shorter than `count`, the iterator overload of replace-by-string called on
`begin() + pos`, `begin() + pos + count` ends exactly as the positional
overload called on `pos`, `count`. -/
theorem replace_iter_string_eq_replace_string (Size : Nat) (buf str : List CharT)
    (pos count : Nat) (hS : 1 ≤ Size) (hS2 : Size < 4294967296) (hc : count < 4294967296)
    (h : str.length < count ∨ pos + count < size Size) :
    replace_iter_string Size buf (begin_ + (pos : Int)) (begin_ + (pos : Int) + (count : Int))
        str
      = replace_string Size buf pos count str := by
  have hsize := size_eq Size hS hS2
  have hb : begin_ + (pos : Int) = (pos : Int) := by simp [begin_]
  have hd : (((pos : Int) + (count : Int) - (pos : Int)) % 4294967296).toNat = count := by
    have : (pos : Int) + (count : Int) - (pos : Int) = (count : Int) := by omega
    rw [this]
    omega
  have hl : (pos : Int) + (count : Int) = ((pos + count : Nat) : Int) := by push_cast; rfl
  unfold replace_iter_string replace_string
  rw [hb, hd]
  by_cases hshort : str.length < count
  · rw [if_pos hshort, if_pos hshort]
  · rw [if_neg hshort, if_neg hshort]
    have hin : pos + count < size Size := by
      rcases h with h | h
      · exact absurd h hshort
      · exact h
    have ha : add32 pos count = pos + count := by simp only [add32]; omega
    rw [ha, hl]
    simp only [begin_, end_, hsize]
    rw [hsize] at hin
    rw [if_neg (by omega), if_neg (by omega)]
    simp only [Int.toNat_ofNat]
    have hloop : for_range pos (pos + count)
          (fun it (buf : List CharT) => buf.set it (str.getD (it - pos) 0)) buf
        = for_range pos (pos + count)
          (fun idx (buf : List CharT) => buf.set idx (str.getD (sub32 idx pos) 0)) buf := by
      apply for_range_congr
      intro i s hi1 hi2
      have : sub32 i pos = i - pos := by simp only [sub32]; omega
      simp only [this]
    rw [hloop]

/-! ## Moving and swapping -/

theorem getD_replicate_zero (n j : Nat) : (List.replicate n (0 : CharT)).getD j 0 = 0 := by
  by_cases h : j < n
  · simp [List.getD_eq_getElem?_getD, List.getElem?_replicate, h]
  · simp [List.getD_eq_getElem?_getD, List.getElem?_replicate, h]

/-- The loop shared by the move constructor and the move assignment: the
destination ends with the units the source had, the source ends all zero. -/
theorem move_loop_spec (Size : Nat) (buf x : List CharT)
    (hb : buf.length = Size) (hx : x.length = Size) :
    (for_range 0 Size
      (fun idx (st : List CharT × List CharT) =>
        let buf := st.1.set idx (st.2.getD idx 0)
        let other := st.2.set idx 0
        (buf, other))
      (buf, x)) = (x, List.replicate Size 0) := by
  have key := for_range_invariant
    (fun idx (st : List CharT × List CharT) =>
      let buf := st.1.set idx (st.2.getD idx 0)
      let other := st.2.set idx 0
      (buf, other))
    (fun i st => st.1.length = Size ∧ st.2.length = Size ∧
      (∀ j, j < i → st.1.getD j 0 = x.getD j 0) ∧
      (∀ j, j < i → st.2.getD j 0 = 0) ∧
      (∀ j, i ≤ j → st.2.getD j 0 = x.getD j 0))
    0 Size (buf, x) (Nat.zero_le _)
    ⟨hb, hx, fun j h => by omega, fun j h => by omega, fun j _ => rfl⟩
    (by
      intro i st _ hi ⟨h1, h2, h3, h4, h5⟩
      refine ⟨by simp [h1], by simp [h2], ?_, ?_, ?_⟩
      · intro j hj
        show (st.1.set i (st.2.getD i 0)).getD j 0 = x.getD j 0
        by_cases hji : j = i
        · subst hji
          rw [getD_set_self _ _ _ (by omega)]
          exact h5 j (Nat.le_refl _)
        · rw [getD_set_of_ne _ _ _ _ hji]
          exact h3 j (by omega)
      · intro j hj
        show (st.2.set i 0).getD j 0 = 0
        by_cases hji : j = i
        · subst hji
          exact getD_set_self _ _ _ (by omega)
        · rw [getD_set_of_ne _ _ _ _ hji]
          exact h4 j (by omega)
      · intro j hj
        show (st.2.set i 0).getD j 0 = x.getD j 0
        rw [getD_set_of_ne _ _ _ _ (by omega)]
        exact h5 j (by omega))
  obtain ⟨h1, h2, h3, h4, _⟩ := key
  apply Prod.ext
  · exact ext_getD _ _ (by rw [h1, hx]) (fun j hj => h3 j (by omega))
  · apply ext_getD _ _ (by rw [h2, List.length_replicate])
    intro j hj
    rw [h4 j (by omega), getD_replicate_zero]

/-- The loop of `swap` on two buffers of `Size` units: below `size()` the
units are exchanged, from `size()` on each buffer keeps its own. -/
theorem swap_units (Size : Nat) (a b : List CharT)
    (ha : a.length = Size) (hb : b.length = Size) (hsz : size Size ≤ Size) :
    (swap Size a b).1.length = Size ∧ (swap Size a b).2.length = Size ∧
    (∀ j, j < size Size →
      (swap Size a b).1.getD j 0 = b.getD j 0 ∧ (swap Size a b).2.getD j 0 = a.getD j 0) ∧
    (∀ j, size Size ≤ j →
      (swap Size a b).1.getD j 0 = a.getD j 0 ∧ (swap Size a b).2.getD j 0 = b.getD j 0) := by
  have key := for_range_invariant
    (fun idx (st : List CharT × List CharT) =>
      (st.1.set idx (st.2.getD idx 0), st.2.set idx (st.1.getD idx 0)))
    (fun i st => st.1.length = Size ∧ st.2.length = Size ∧
      (∀ j, j < i → st.1.getD j 0 = b.getD j 0 ∧ st.2.getD j 0 = a.getD j 0) ∧
      (∀ j, i ≤ j → st.1.getD j 0 = a.getD j 0 ∧ st.2.getD j 0 = b.getD j 0))
    0 (size Size) (a, b) (Nat.zero_le _)
    ⟨ha, hb, fun j h => by omega, fun j _ => ⟨rfl, rfl⟩⟩
    (by
      intro i st _ hi ⟨h1, h2, h3, h4⟩
      refine ⟨by simp [h1], by simp [h2], ?_, ?_⟩
      · intro j hj
        show (st.1.set i (st.2.getD i 0)).getD j 0 = b.getD j 0 ∧
          (st.2.set i (st.1.getD i 0)).getD j 0 = a.getD j 0
        by_cases hji : j = i
        · subst hji
          rw [getD_set_self _ _ _ (by omega), getD_set_self _ _ _ (by omega)]
          exact ⟨(h4 j (Nat.le_refl _)).2, (h4 j (Nat.le_refl _)).1⟩
        · rw [getD_set_of_ne _ _ _ _ hji, getD_set_of_ne _ _ _ _ hji]
          exact h3 j (by omega)
      · intro j hj
        show (st.1.set i (st.2.getD i 0)).getD j 0 = a.getD j 0 ∧
          (st.2.set i (st.1.getD i 0)).getD j 0 = b.getD j 0
        rw [getD_set_of_ne _ _ _ _ (by omega), getD_set_of_ne _ _ _ _ (by omega)]
        exact h4 j (by omega))
  exact key

/-! ## `operator==` as a relation -/

theorem operator_eq_loop_refl (a : List CharT) :
    ∀ (n idx : Nat), operator_eq.loop a a n idx = true := by
  intro n
  induction n with
  | zero => intro idx; rfl
  | succ n ih =>
    intro idx
    simp only [operator_eq.loop]
    rw [if_neg (by simp)]
    by_cases hz : a.getD idx 0 = 0
    · rw [if_pos hz]
    · rw [if_neg hz]; exact ih (idx + 1)

theorem operator_eq_loop_symm (a b : List CharT) :
    ∀ (n idx : Nat), operator_eq.loop a b n idx = operator_eq.loop b a n idx := by
  intro n
  induction n with
  | zero => intro idx; rfl
  | succ n ih =>
    intro idx
    simp only [operator_eq.loop]
    by_cases hne : a.getD idx 0 = b.getD idx 0
    · rw [if_neg (not_not.mpr hne), if_neg (not_not.mpr hne.symm)]
      by_cases hz : a.getD idx 0 = 0
      · rw [if_pos hz, if_pos (by rw [← hne]; exact hz)]
      · rw [if_neg hz, if_neg (by rw [← hne]; exact hz)]
        exact ih (idx + 1)
    · rw [if_pos hne, if_pos (fun e => hne e.symm)]

theorem operator_eq_loop_trans (a b c : List CharT) :
    ∀ (n idx : Nat), operator_eq.loop a b n idx = true → operator_eq.loop b c n idx = true →
      operator_eq.loop a c n idx = true := by
  intro n
  induction n with
  | zero => intro idx _ _; rfl
  | succ n ih =>
    intro idx hab hbc
    simp only [operator_eq.loop] at hab hbc ⊢
    by_cases h1 : a.getD idx 0 = b.getD idx 0
    · rw [if_neg (not_not.mpr h1)] at hab
      by_cases h2 : b.getD idx 0 = c.getD idx 0
      · rw [if_neg (not_not.mpr h2)] at hbc
        rw [if_neg (not_not.mpr (h1.trans h2))]
        by_cases hz : a.getD idx 0 = 0
        · rw [if_pos hz]
        · have hz2 : ¬ b.getD idx 0 = 0 := by rw [← h1]; exact hz
          rw [if_neg hz] at hab ⊢
          rw [if_neg hz2] at hbc
          exact ih (idx + 1) hab hbc
      · rw [if_pos h2] at hbc
        exact absurd hbc (by simp)
    · rw [if_pos h1] at hab
      exact absurd hab (by simp)

/-! ## Conversion between capacities -/

/-- Below its length, the logical content has the units of the buffer. -/
theorem logical_getD : ∀ (a : List CharT) (j : Nat), j < (logical a).length →
    (logical a).getD j 0 = a.getD j 0 := by
  intro a
  induction a with
  | nil => intro j hj; simp [logical] at hj
  | cons x t ih =>
    intro j hj
    by_cases hx : x = 0
    · subst hx; rw [logical_cons_zero] at hj; simp at hj
    · rw [logical_cons_ne x t hx] at hj ⊢
      cases j with
      | zero => simp
      | succ j =>
        have := ih j (by simpa using hj)
        simpa using this

/-- The unit right after the logical content of a buffer that holds a
terminator is the terminator. -/
theorem getD_logical_length : ∀ (a : List CharT), 0 ∈ a →
    a.getD (logical a).length 0 = 0 := by
  intro a
  induction a with
  | nil => intro h; simp at h
  | cons x t ih =>
    intro h
    by_cases hx : x = 0
    · subst hx; rw [logical_cons_zero]; simp
    · have ht : 0 ∈ t := by
        rcases List.mem_cons.mp h with h1 | h1
        · exact absurd h1.symm hx
        · exact h1
      rw [logical_cons_ne x t hx]
      simpa using ih ht

/-- A buffer that starts with the units of `s`, none of them the terminator,
followed by a terminator holds a terminator and has logical content `s`. -/
theorem logical_eq_of_units (r s : List CharT)
    (hunits : ∀ j, j < s.length → r.getD j 0 = s.getD j 0) (hnz : ∀ c ∈ s, c ≠ 0)
    (hterm : r.getD s.length 0 = 0) (hlen : s.length < r.length) :
    0 ∈ r ∧ logical r = s := by
  have hmem : 0 ∈ r := by
    have := getD_mem r s.length hlen
    rwa [hterm] at this
  have h1 := string_of_cstr_of_units s r hunits hnz hterm hlen
  have h2 := string_of_cstr_eq_logical r hmem
  rw [h1] at h2
  exact ⟨hmem, (Option.some.inj h2).symm⟩

/-- What the loop and the final store of the converting constructor leave in
the buffer: with `m = min Size N`, the units below `m - 1` are those of the
source, and unit `m - 1` is the terminator. -/
theorem ctor_other_units (Size N : Nat) (buf other : List CharT)
    (hS : 1 ≤ Size) (hS2 : Size < 4294967296) (hN : 1 ≤ N) (hb : buf.length = Size) :
    (ctor_other Size N buf other).length = Size ∧
    (∀ j, j < min Size N - 1 → (ctor_other Size N buf other).getD j 0 = other.getD j 0) ∧
    (ctor_other Size N buf other).getD (min Size N - 1) 0 = 0 := by
  have hm1 : MIN Size N = min Size N := by simp only [MIN]; split <;> omega
  have hm2 : sub32 (MIN N Size) 1 = min Size N - 1 := by
    simp only [MIN, sub32]; split <;> omega
  obtain ⟨klen, kset, _⟩ := set_loop_spec (fun idx => other.getD idx 0) buf 0 (MIN Size N)
  generalize hr : for_range 0 (MIN Size N)
    (fun idx (b : List CharT) => b.set idx ((fun idx => other.getD idx 0) idx)) buf = r
    at klen kset
  have hdef : ctor_other Size N buf other = r.set (min Size N - 1) 0 := by
    rw [← hr, ← hm2]; rfl
  rw [hdef]
  rw [hm1] at kset
  refine ⟨by simp [klen, hb], ?_, ?_⟩
  · intro j hj
    rw [getD_set_of_ne _ _ _ _ (by omega)]
    exact kset (by omega) j (Nat.zero_le _) (by omega)
  · exact getD_set_self _ _ _ (by omega)

/-! ## The terminator slot -/

/-- The copy loop of the copy constructor and the copy assignment duplicates
all `Size` units. -/
theorem copy_loop_spec_all (Size : Nat) (buf other : List CharT)
    (hb : buf.length = Size) (ho : other.length = Size) :
    for_range 0 Size (fun idx (b : List CharT) => b.set idx (other.getD idx 0)) buf = other := by
  obtain ⟨klen, kset, _⟩ := set_loop_spec (fun idx => other.getD idx 0) buf 0 Size
  apply ext_getD _ _ (klen.trans (hb.trans ho.symm))
  intro j hj
  have hj2 : j < Size := by
    have : (for_range 0 Size (fun idx (b : List CharT) => b.set idx (other.getD idx 0))
      buf).length = buf.length := klen
    omega
  exact kset (by omega) j (Nat.zero_le _) hj2

/-- A store loop whose bound does not pass `size()` leaves the terminator slot
alone. -/
theorem set_loop_slot (g : Nat → CharT) (Size : Nat) (buf : List CharT) (lo hi : Nat)
    (hS : 1 ≤ Size) (hS2 : Size < 4294967296) (hhi : hi ≤ size Size) :
    (for_range lo hi (fun idx (b : List CharT) => b.set idx (g idx)) buf).getD (Size - 1) 0
      = buf.getD (Size - 1) 0 := by
  have hsize := size_eq Size hS hS2
  exact (set_loop_spec g buf lo hi).2.2 (Size - 1) (Or.inr (by omega))

/-- The constructor from a growable string keeps the length of the buffer and
ends with the terminator in the terminator slot, whatever the source is. -/
theorem ctor_string_slot (Size : Nat) (buf str : List CharT)
    (hS : 1 ≤ Size) (hS2 : Size < 4294967296) (hlen : buf.length = Size) :
    (ctor_string Size buf str).length = Size ∧
    (ctor_string Size buf str).getD (Size - 1) 0 = 0 := by
  have hsub : sub32 Size 1 = Size - 1 := by simp only [sub32]; omega
  have key := for_range_invariant
    (fun idx (buf : List CharT) =>
      let buf := buf.set idx (str.getD idx 0)
      if idx = sub64 str.length 1 then
        buf.set (MIN (sub32 Size 1) (add32 idx 1)) 0
      else buf)
    (fun _ b => b.length = Size)
    0 (MIN (size Size) str.length) buf (Nat.zero_le _) hlen
    (by
      intro i b _ _ hb
      show (if i = sub64 str.length 1 then
        (b.set i (str.getD i 0)).set (MIN (sub32 Size 1) (add32 i 1)) 0
        else b.set i (str.getD i 0)).length = Size
      split
      · simp [hb]
      · simp [hb])
  generalize hr : for_range 0 (MIN (size Size) str.length)
    (fun idx (buf : List CharT) =>
      let buf := buf.set idx (str.getD idx 0)
      if idx = sub64 str.length 1 then
        buf.set (MIN (sub32 Size 1) (add32 idx 1)) 0
      else buf) buf = r at key
  have hdef : ctor_string Size buf str = r.set (Size - 1) 0 := by
    rw [← hr, ← hsub]; rfl
  rw [hdef]
  exact ⟨by simp [key], getD_set_self _ _ _ (by omega)⟩

/-- The copy constructor duplicates all `Size` units of its source; it is the
constructor chosen when source and destination have the same capacity. -/
theorem ctor_copy_eq (Size : Nat) (buf other : List CharT)
    (hb : buf.length = Size) (ho : other.length = Size) :
    ctor_copy Size buf other = other :=
  copy_loop_spec_all Size buf other hb ho

/-! ## The claims C11 to C20 -/

/-- C11: `fill(pos, c)` on a string of capacity `Size`.  It throws
`out_of_range` exactly when `pos ≥ size()`, and then the buffer is unchanged;
otherwise it returns normally, every unit at an index `pos ≤ j < size()` is
`c`, and every other unit (those below `pos` and the terminator slot
`Size - 1`) keeps its value. -/
theorem fill_pos_spec (Size : Nat) (buf : List CharT) (pos : Nat) (c : CharT)
    (hS : 1 ≤ Size) (hS2 : Size < 4294967296) (hlen : buf.length = Size) :
    ((fill_pos Size buf pos c).thrown = some Error.out_of_range ↔ pos ≥ size Size) ∧
    (pos ≥ size Size → (fill_pos Size buf pos c).buf = buf) ∧
    (pos < size Size →
      (fill_pos Size buf pos c).thrown = none ∧
      (fill_pos Size buf pos c).buf.length = Size ∧
      (∀ j, pos ≤ j → j < size Size → (fill_pos Size buf pos c).buf.getD j 0 = c) ∧
      (∀ j, j < pos ∨ size Size ≤ j →
        (fill_pos Size buf pos c).buf.getD j 0 = buf.getD j 0)) := by
  have hsize := size_eq Size hS hS2
  obtain ⟨klen, kset, kframe⟩ := set_loop_spec (fun _ => c) buf pos (size Size)
  by_cases hp : pos ≥ size Size
  · have e : fill_pos Size buf pos c = ⟨buf, some Error.out_of_range⟩ := by
      unfold fill_pos; rw [if_pos hp]
    rw [e]
    exact ⟨⟨fun _ => hp, fun _ => rfl⟩, fun _ => rfl, fun h => by omega⟩
  · have e : fill_pos Size buf pos c
        = ⟨for_range pos (size Size) (fun idx (b : List CharT) => b.set idx c) buf, none⟩ := by
      unfold fill_pos; rw [if_neg hp]
    rw [e]
    refine ⟨⟨fun h => Option.noConfusion h, fun h => absurd h hp⟩, fun h => absurd h hp, fun _ => ?_⟩
    exact ⟨rfl, klen.trans hlen, kset (by omega), kframe⟩

/-- C11 at the inputs of the specification: on a capacity-8 string holding
"hello", `fill(6, 'x')` with `pos = size() - 1` and `fill(7, 'x')` with
`pos = size()`. -/
theorem fill_pos_spec_witness :
    (1 ≤ 8 ∧ 8 < 4294967296 ∧ ([104, 101, 108, 108, 111, 0, 0, 0] : List CharT).length = 8) ∧
    ((fill_pos 8 [104, 101, 108, 108, 111, 0, 0, 0] 6 120).thrown = some Error.out_of_range
      ↔ 6 ≥ size 8) ∧
    (fill_pos 8 [104, 101, 108, 108, 111, 0, 0, 0] 6 120).buf
      = [104, 101, 108, 108, 111, 0, 120, 0] ∧
    ((fill_pos 8 [104, 101, 108, 108, 111, 0, 0, 0] 7 120).thrown = some Error.out_of_range
      ↔ 7 ≥ size 8) ∧
    (7 ≥ size 8 → (fill_pos 8 [104, 101, 108, 108, 111, 0, 0, 0] 7 120).buf
      = [104, 101, 108, 108, 111, 0, 0, 0]) :=
  ⟨⟨by decide, by decide, by decide⟩,
    (fill_pos_spec 8 [104, 101, 108, 108, 111, 0, 0, 0] 6 120
      (by decide) (by decide) (by decide)).1,
    by decide,
    (fill_pos_spec 8 [104, 101, 108, 108, 111, 0, 0, 0] 7 120
      (by decide) (by decide) (by decide)).1,
    (fill_pos_spec 8 [104, 101, 108, 108, 111, 0, 0, 0] 7 120
      (by decide) (by decide) (by decide)).2.1⟩

/-- C12: `find(ch, pos)` on a string of capacity `Size`.  For `pos ≥ size()`
it throws `out_of_range`.  For `pos < size()` it returns normally; when some
unit at an index in `pos .. size() - 1` equals `ch` it returns the least such
index, and it returns `npos` exactly when no unit in that range equals `ch`. -/
theorem find_char_spec (Size : Nat) (buf : List CharT) (ch : CharT) (pos : Nat)
    (hS : 1 ≤ Size) (hS2 : Size < 4294967296) :
    (pos ≥ size Size → find_char Size buf ch pos = Except.error Error.out_of_range) ∧
    (pos < size Size →
      ((∃ j, pos ≤ j ∧ j < size Size ∧ buf.getD j 0 = ch) →
        ∃ i, find_char Size buf ch pos = Except.ok i ∧ pos ≤ i ∧ i < size Size ∧
          buf.getD i 0 = ch ∧ ∀ j, pos ≤ j → j < i → buf.getD j 0 ≠ ch) ∧
      (find_char Size buf ch pos = Except.ok npos ↔
        ∀ j, pos ≤ j → j < size Size → buf.getD j 0 ≠ ch)) := by
  have hsize := size_eq Size hS hS2
  refine ⟨fun hp => by unfold find_char; rw [if_pos hp], fun hp => ?_⟩
  have e : find_char Size buf ch pos
      = Except.ok (find_char.loop buf ch (size Size - pos) pos) := by
    unfold find_char; rw [if_neg (by omega)]
  have hsum : pos + (size Size - pos) = size Size := by omega
  rw [e]
  rcases find_char_loop_spec buf ch (size Size - pos) pos with ⟨h1, h2⟩ | ⟨h1, h2, h3, h4⟩
  · rw [hsum] at h2
    refine ⟨?_, ?_⟩
    · rintro ⟨j, hj1, hj2, hj3⟩
      exact absurd hj3 (h2 j hj1 hj2)
    · exact ⟨fun _ => h2, fun _ => by rw [h1]⟩
  · rw [hsum] at h2
    refine ⟨fun _ => ⟨_, rfl, h1, h2, h3, h4⟩, ?_⟩
    constructor
    · intro h
      have hr : find_char.loop buf ch (size Size - pos) pos = npos := Except.ok.inj h
      rw [hr] at h2
      simp only [npos] at h2
      omega
    · intro h
      exact absurd h3 (h _ h1 h2)

/-- C12 at a concrete input: the first 'l' of "hello" in a capacity-8 string
is at index 2, and a unit that occurs only in the terminator slot is not
found. -/
theorem find_char_spec_witness :
    (1 ≤ 8 ∧ 8 < 4294967296) ∧
    (find_char 8 [104, 101, 108, 108, 111, 0, 0, 0] 108 0 = Except.ok 2) ∧
    (7 ≥ size 8 →
      find_char 8 [104, 101, 108, 108, 111, 0, 0, 0] 108 7
        = Except.error Error.out_of_range) ∧
    (find_char 8 [104, 101, 108, 108, 111, 0, 0, 9] 9 0 = Except.ok npos ↔
      ∀ j, 0 ≤ j → j < size 8 →
        ([104, 101, 108, 108, 111, 0, 0, 9] : List CharT).getD j 0 ≠ 9) :=
  ⟨⟨by decide, by decide⟩, rfl,
    (find_char_spec 8 [104, 101, 108, 108, 111, 0, 0, 0] 108 7 (by decide) (by decide)).1,
    ((find_char_spec 8 [104, 101, 108, 108, 111, 0, 0, 9] 9 0 (by decide) (by decide)).2
      (by decide)).2⟩

/-- C13, evaluated where the code departs from it.  On a capacity-8 string
holding "hello": with `pos = 5`, `count = 2` (so `pos + count = size()`) the
positional overload throws `out_of_range`, because its check is
`pos + count >= size()`, while the iterator overload on `begin() + 5`,
`begin() + 7` succeeds and stores the two units; with `pos = 7`, `count = 1`
both fail, the positional overload with `out_of_range` and the iterator
overload with `range_error`. -/
theorem replace_iter_string_differs_from_positional :
    replace_string 8 [104, 101, 108, 108, 111, 0, 0, 0] 5 2 [88, 89]
      = ⟨[104, 101, 108, 108, 111, 0, 0, 0], some Error.out_of_range⟩ ∧
    replace_iter_string 8 [104, 101, 108, 108, 111, 0, 0, 0] (begin_ + 5) (begin_ + 5 + 2)
        [88, 89]
      = ⟨[104, 101, 108, 108, 111, 88, 89, 0], none⟩ ∧
    replace_string 8 [104, 101, 108, 108, 111, 0, 0, 0] 7 1 [88]
      = ⟨[104, 101, 108, 108, 111, 0, 0, 0], some Error.out_of_range⟩ ∧
    replace_iter_string 8 [104, 101, 108, 108, 111, 0, 0, 0] (begin_ + 7) (begin_ + 7 + 1)
        [88]
      = ⟨[104, 101, 108, 108, 111, 0, 0, 0], some Error.range_error⟩ := by
  decide

/-- C14, evaluated where the code departs from it.  On a capacity-8 string,
for the empty range at `pos = size() = 7`, `count = 0`, the positional
overload returns normally (its check `pos + count > size()` is false), while
the iterator overload on `begin() + 7`, `begin() + 7` throws `out_of_range`
(its check `first >= end()` is true). -/
theorem replace_iter_char_rejects_empty_range_at_size :
    replace_char 8 [104, 101, 108, 108, 111, 0, 0, 0] 7 0 120
      = ⟨[104, 101, 108, 108, 111, 0, 0, 0], none⟩ ∧
    replace_iter_char 8 [104, 101, 108, 108, 111, 0, 0, 0] (begin_ + 7) (begin_ + 7 + 0) 120
      = ⟨[104, 101, 108, 108, 111, 0, 0, 0], some Error.out_of_range⟩ := by
  decide

/-- C15: conversion between capacities.  `Size` is the capacity of the string
constructed or assigned to (the claim's `N`), `M` the capacity of the source
(the claim's `M`).  For a source whose buffer holds a terminator, with logical
content `t` of length `len`, the converting constructor (on storage of any
prior content) and the converting assignment (on any string) yield a buffer
that holds a terminator and whose logical content is the first
`min len (Size - 1)` units of `t`: all of `t` when `Size ≥ M`. -/
theorem ctor_other_spec (Size M : Nat) (buf other : List CharT)
    (hS : 1 ≤ Size) (hS2 : Size < 4294967296) (hM : 1 ≤ M)
    (hb : buf.length = Size) (ho : other.length = M) (ht : 0 ∈ other) :
    (0 ∈ ctor_other Size M buf other ∧
      logical (ctor_other Size M buf other)
        = (logical other).take (min (logical other).length (Size - 1))) ∧
    (0 ∈ assign_other Size M buf other ∧
      logical (assign_other Size M buf other)
        = (logical other).take (min (logical other).length (Size - 1))) ∧
    (M ≤ Size → logical (ctor_other Size M buf other) = logical other ∧
      logical (assign_other Size M buf other) = logical other) := by
  have hassign : assign_other Size M buf other = ctor_other Size M buf other := rfl
  obtain ⟨rlen, runits, rterm⟩ := ctor_other_units Size M buf other hS hS2 hM hb
  have hlt := logical_length_lt other ht
  rw [ho] at hlt
  have hk : ((logical other).take (min (logical other).length (Size - 1))).length
      = min (logical other).length (Size - 1) := by
    rw [List.length_take]; omega
  have main : 0 ∈ ctor_other Size M buf other ∧
      logical (ctor_other Size M buf other)
        = (logical other).take (min (logical other).length (Size - 1)) := by
    apply logical_eq_of_units
    · intro j hj
      rw [hk] at hj
      rw [runits j (by omega), getD_take _ _ _ hj, logical_getD other j (by omega)]
    · intro c hc
      exact logical_ne_zero other c (List.mem_of_mem_take hc)
    · rw [hk]
      by_cases hlast : min (logical other).length (Size - 1) = min Size M - 1
      · rw [hlast]; exact rterm
      · have hlen : min (logical other).length (Size - 1) = (logical other).length := by
          omega
        rw [hlen, runits _ (by omega)]
        exact getD_logical_length other ht
    · rw [hk, rlen]; omega
  refine ⟨main, by rw [hassign]; exact main, ?_⟩
  intro hle
  have hall : (logical other).take (min (logical other).length (Size - 1)) = logical other := by
    apply List.take_of_length_le
    omega
  rw [hassign, main.2, hall]
  exact ⟨rfl, rfl⟩

/-- C15 at concrete inputs: "hello" from a capacity-8 string into capacity 4
(truncated to "hel") and "hi" from capacity 4 into capacity 8 (kept whole). -/
theorem ctor_other_spec_witness :
    (logical (ctor_other 4 8 [120, 120, 120, 120] [104, 101, 108, 108, 111, 0, 0, 0])
      = (logical [104, 101, 108, 108, 111, 0, 0, 0]).take
          (min (logical [104, 101, 108, 108, 111, 0, 0, 0]).length (4 - 1))) ∧
    logical (ctor_other 4 8 [120, 120, 120, 120] [104, 101, 108, 108, 111, 0, 0, 0])
      = [104, 101, 108] ∧
    (4 ≤ 8 →
      logical (ctor_other 8 4 [120, 120, 120, 120, 120, 120, 120, 120] [104, 105, 0, 7])
        = logical [104, 105, 0, 7] ∧
      logical (assign_other 8 4 [120, 120, 120, 120, 120, 120, 120, 120] [104, 105, 0, 7])
        = logical [104, 105, 0, 7]) :=
  ⟨(ctor_other_spec 4 8 [120, 120, 120, 120] [104, 101, 108, 108, 111, 0, 0, 0]
      (by decide) (by decide) (by decide) (by decide) (by decide) (by decide)).1.2,
    by decide,
    (ctor_other_spec 8 4 [120, 120, 120, 120, 120, 120, 120, 120] [104, 105, 0, 7]
      (by decide) (by decide) (by decide) (by decide) (by decide) (by decide)).2.2⟩

/-- A buffer of `Size ≥ 1` units stores the terminator in its slot exactly
when reading the slot gives the terminator. -/
theorem terminator_stored_iff (Size : Nat) (buf : List CharT) (hS : 1 ≤ Size)
    (hlen : buf.length = Size) :
    terminator_stored Size buf ↔ buf.getD (Size - 1) 0 = 0 := by
  have hget := getElem?_eq_some_getD buf (Size - 1) (by omega)
  constructor
  · rintro ⟨_, h⟩
    rw [hget] at h
    exact Option.some.inj h
  · intro h
    exact ⟨hlen, by rw [hget, h]⟩

/-- A store loop whose bound does not pass `size()` keeps the invariant: the
buffer keeps its `Size` units and its terminator slot. -/
theorem set_loop_keeps (g : Nat → CharT) (Size : Nat) (buf : List CharT) (lo hi : Nat)
    (hS : 1 ≤ Size) (hS2 : Size < 4294967296) (hhi : hi ≤ size Size)
    (h : terminator_stored Size buf) :
    terminator_stored Size
      (for_range lo hi (fun idx (b : List CharT) => b.set idx (g idx)) buf) := by
  have hlen : (for_range lo hi (fun idx (b : List CharT) => b.set idx (g idx)) buf).length
      = Size := (set_loop_spec g buf lo hi).1.trans h.1
  rw [terminator_stored_iff Size _ hS hlen, set_loop_slot g Size buf lo hi hS hS2 hhi]
  exact (terminator_stored_iff Size buf hS h.1).mp h

/-- C16: the termination invariant `terminator_stored`, "the buffer has its
`Size` units and the unit stored at index `Size - 1` is the terminator".  It
is established by the default constructor and by the constructor from a
growable string, on storage of any prior content.  It is preserved, on success
and on failure alike, by `fill(c)`, `fill(pos, c)`, `clear()`, the four
`replace` overloads, `swap` (for both operands when both satisfy it) and the
self-assignments; it holds after copy and move assignment from a string that
satisfies it (for the moved-from string as well) and after assignment from a
growable string. -/
theorem termination_invariant (Size : Nat) (buf other : List CharT)
    (hS : 1 ≤ Size) (hS2 : Size < 4294967296)
    (hb : buf.length = Size) (ho : other.length = Size) :
    terminator_stored Size (ctor_default Size buf) ∧
    (∀ str, terminator_stored Size (ctor_string Size buf str)) ∧
    (∀ str, terminator_stored Size (assign_string Size buf str)) ∧
    (terminator_stored Size buf →
      (∀ c, terminator_stored Size (fill Size buf c)) ∧
      (∀ pos c, terminator_stored Size (fill_pos Size buf pos c).buf) ∧
      terminator_stored Size (clear Size buf) ∧
      (∀ pos count c, terminator_stored Size (replace_char Size buf pos count c).buf) ∧
      (∀ first last c,
        terminator_stored Size (replace_iter_char Size buf first last c).buf) ∧
      (∀ pos count str,
        terminator_stored Size (replace_string Size buf pos count str).buf) ∧
      (∀ first last str,
        terminator_stored Size (replace_iter_string Size buf first last str).buf) ∧
      (terminator_stored Size other →
        terminator_stored Size (swap Size buf other).1 ∧
        terminator_stored Size (swap Size buf other).2) ∧
      terminator_stored Size (assign_copy Size buf buf true) ∧
      terminator_stored Size (assign_move Size buf buf true).1) ∧
    (terminator_stored Size other →
      terminator_stored Size (assign_copy Size buf other false) ∧
      terminator_stored Size (assign_move Size buf other false).1 ∧
      terminator_stored Size (assign_move Size buf other false).2) := by
  have hsize := size_eq Size hS hS2
  have mk : ∀ b : List CharT, b.length = Size → b.getD (Size - 1) 0 = 0 →
      terminator_stored Size b :=
    fun b hl hz => (terminator_stored_iff Size b hS hl).mpr hz
  refine ⟨?_,
    fun str => mk _ (ctor_string_slot Size buf str hS hS2 hb).1
      (ctor_string_slot Size buf str hS hS2 hb).2,
    fun str => mk _ (ctor_string_slot Size buf str hS hS2 hb).1
      (ctor_string_slot Size buf str hS hS2 hb).2, ?_, ?_⟩
  · exact mk _ ((set_loop_spec (fun _ => 0) buf 0 Size).1.trans hb)
      ((set_loop_spec (fun _ => 0) buf 0 Size).2.1 (by omega) (Size - 1) (Nat.zero_le _)
        (by omega))
  · intro hinv
    have hfill : ∀ c, terminator_stored Size (fill Size buf c) := fun c =>
      set_loop_keeps (fun _ => c) Size buf 0 (size Size) hS hS2 (Nat.le_refl _) hinv
    refine ⟨hfill, ?_, hfill 0, ?_, ?_, ?_, ?_, ?_, hinv, hinv⟩
    · intro pos c
      unfold fill_pos
      split
      · exact hinv
      · exact set_loop_keeps (fun _ => c) Size buf pos (size Size) hS hS2 (Nat.le_refl _) hinv
    · intro pos count c
      unfold replace_char
      split
      · exact hinv
      · exact set_loop_keeps (fun _ => c) Size buf pos (add32 pos count) hS hS2
          (by omega) hinv
    · intro first last c
      unfold replace_iter_char
      split
      · exact hinv
      · rename_i hg
        simp only [begin_, end_] at hg
        exact set_loop_keeps (fun _ => c) Size buf first.toNat last.toNat hS hS2
          (by omega) hinv
    · intro pos count str
      unfold replace_string
      split
      · exact hinv
      · split
        · exact hinv
        · exact set_loop_keeps (fun idx => str.getD (sub32 idx pos) 0) Size buf pos
            (add32 pos count) hS hS2 (by omega) hinv
    · intro first last str
      unfold replace_iter_string
      split
      · exact hinv
      · split
        · exact hinv
        · rename_i _ hg
          simp only [begin_, end_] at hg
          exact set_loop_keeps (fun it => str.getD (it - first.toNat) 0) Size buf
            first.toNat last.toNat hS hS2 (by omega) hinv
    · intro hoinv
      obtain ⟨l1, l2, _, hhigh⟩ := swap_units Size buf other hb ho (by omega)
      have zb := (terminator_stored_iff Size buf hS hb).mp hinv
      have zo := (terminator_stored_iff Size other hS ho).mp hoinv
      exact ⟨mk _ l1 ((hhigh (Size - 1) (by omega)).1.trans zb),
        mk _ l2 ((hhigh (Size - 1) (by omega)).2.trans zo)⟩
  · intro hoinv
    have hcopy : assign_copy Size buf other false = other :=
      copy_loop_spec_all Size buf other hb ho
    have hmove : assign_move Size buf other false = (other, List.replicate Size 0) :=
      move_loop_spec Size buf other hb ho
    rw [hcopy, hmove]
    exact ⟨hoinv, hoinv,
      mk _ (List.length_replicate _ _) (getD_replicate_zero Size (Size - 1))⟩

/-- C16 at a concrete input: capacity 3, a string holding "hi" and another
holding "x". -/
theorem termination_invariant_witness :
    (1 ≤ 3 ∧ 3 < 4294967296 ∧ ([104, 105, 0] : List CharT).length = 3 ∧
      ([120, 0, 0] : List CharT).length = 3) ∧
    (
    terminator_stored 3 (ctor_default 3 [104, 105, 0]) ∧
    (∀ str, terminator_stored 3 (ctor_string 3 [104, 105, 0] str)) ∧
    (∀ str, terminator_stored 3 (assign_string 3 [104, 105, 0] str)) ∧
    (terminator_stored 3 [104, 105, 0] →
      (∀ c, terminator_stored 3 (fill 3 [104, 105, 0] c)) ∧
      (∀ pos c, terminator_stored 3 (fill_pos 3 [104, 105, 0] pos c).buf) ∧
      terminator_stored 3 (clear 3 [104, 105, 0]) ∧
      (∀ pos count c, terminator_stored 3 (replace_char 3 [104, 105, 0] pos count c).buf) ∧
      (∀ first last c,
        terminator_stored 3 (replace_iter_char 3 [104, 105, 0] first last c).buf) ∧
      (∀ pos count str,
        terminator_stored 3 (replace_string 3 [104, 105, 0] pos count str).buf) ∧
      (∀ first last str,
        terminator_stored 3 (replace_iter_string 3 [104, 105, 0] first last str).buf) ∧
      (terminator_stored 3 [120, 0, 0] →
        terminator_stored 3 (swap 3 [104, 105, 0] [120, 0, 0]).1 ∧
        terminator_stored 3 (swap 3 [104, 105, 0] [120, 0, 0]).2) ∧
      terminator_stored 3 (assign_copy 3 [104, 105, 0] [104, 105, 0] true) ∧
      terminator_stored 3 (assign_move 3 [104, 105, 0] [104, 105, 0] true).1) ∧
    (terminator_stored 3 [120, 0, 0] →
      terminator_stored 3 (assign_copy 3 [104, 105, 0] [120, 0, 0] false) ∧
      terminator_stored 3 (assign_move 3 [104, 105, 0] [120, 0, 0] false).1 ∧
      terminator_stored 3 (assign_move 3 [104, 105, 0] [120, 0, 0] false).2)) :=
  ⟨⟨by decide, by decide, by decide, by decide⟩,
    termination_invariant 3 [104, 105, 0] [120, 0, 0] (by decide) (by decide) (by decide) (by decide)⟩

/-- C17: move construction.  Constructing `B` (storage of any prior content)
from a string `A` of capacity `Size` whose buffer holds `x` leaves `B` with
exactly the units `x` and `A` with every one of its `Size` units equal to the
terminator. -/
theorem ctor_move_spec (Size : Nat) (buf x : List CharT)
    (hb : buf.length = Size) (hx : x.length = Size) :
    (ctor_move Size buf x).1 = x ∧
    (ctor_move Size buf x).2 = List.replicate Size 0 ∧
    (ctor_move Size buf x).2.length = Size ∧
    (∀ j, j < Size → (ctor_move Size buf x).2.getD j 0 = 0) := by
  have h : ctor_move Size buf x = (x, List.replicate Size 0) := move_loop_spec Size buf x hb hx
  rw [h]
  exact ⟨rfl, rfl, List.length_replicate _ _, fun j _ => getD_replicate_zero Size j⟩

/-- C17 at a concrete input: moving "hello" out of a capacity-8 string. -/
theorem ctor_move_spec_witness :
    ([120, 120, 120, 120, 120, 120, 120, 120] : List CharT).length = 8 ∧
    ([104, 101, 108, 108, 111, 0, 0, 9] : List CharT).length = 8 ∧
    (ctor_move 8 [120, 120, 120, 120, 120, 120, 120, 120] [104, 101, 108, 108, 111, 0, 0, 9]).1
      = [104, 101, 108, 108, 111, 0, 0, 9] ∧
    (ctor_move 8 [120, 120, 120, 120, 120, 120, 120, 120] [104, 101, 108, 108, 111, 0, 0, 9]).2
      = List.replicate 8 0 ∧
    (ctor_move 8 [120, 120, 120, 120, 120, 120, 120, 120]
      [104, 101, 108, 108, 111, 0, 0, 9]).2.length = 8 ∧
    (∀ j, j < 8 →
      (ctor_move 8 [120, 120, 120, 120, 120, 120, 120, 120]
        [104, 101, 108, 108, 111, 0, 0, 9]).2.getD j 0 = 0) :=
  ⟨by decide, by decide,
    ctor_move_spec 8 [120, 120, 120, 120, 120, 120, 120, 120]
      [104, 101, 108, 108, 111, 0, 0, 9] (by decide) (by decide)⟩

/-- C18: `operator==` on two buffers of the same capacity is reflexive and
symmetric whatever the buffers hold, terminated or not. -/
theorem operator_eq_refl_symm (Size : Nat) (a b : List CharT) :
    operator_eq Size a a = true ∧ operator_eq Size a b = operator_eq Size b a :=
  ⟨operator_eq_loop_refl a _ _, operator_eq_loop_symm a b _ _⟩

/-- C19: `swap` on two distinct strings of capacity `Size`.  The units at
every index below `size()` are exchanged and the terminator slot `Size - 1` of
each string keeps its value; hence, when both terminator slots hold the
terminator, the two buffers, and with them the logical contents, are
exchanged; and swapping twice restores both strings. -/
theorem swap_spec (Size : Nat) (a b : List CharT)
    (hS : 1 ≤ Size) (hS2 : Size < 4294967296) (ha : a.length = Size) (hb : b.length = Size) :
    ((swap Size a b).1.length = Size ∧ (swap Size a b).2.length = Size) ∧
    (∀ j, j < size Size →
      (swap Size a b).1.getD j 0 = b.getD j 0 ∧ (swap Size a b).2.getD j 0 = a.getD j 0) ∧
    ((swap Size a b).1.getD (Size - 1) 0 = a.getD (Size - 1) 0 ∧
      (swap Size a b).2.getD (Size - 1) 0 = b.getD (Size - 1) 0) ∧
    (a.getD (Size - 1) 0 = 0 → b.getD (Size - 1) 0 = 0 →
      logical (swap Size a b).1 = logical b ∧ logical (swap Size a b).2 = logical a) ∧
    swap Size (swap Size a b).1 (swap Size a b).2 = (a, b) := by
  have hsize := size_eq Size hS hS2
  obtain ⟨l1, l2, hlow, hhigh⟩ := swap_units Size a b ha hb (by omega)
  obtain ⟨m1, m2, klow, khigh⟩ :=
    swap_units Size (swap Size a b).1 (swap Size a b).2 l1 l2 (by omega)
  refine ⟨⟨l1, l2⟩, hlow, hhigh (Size - 1) (by omega), ?_, ?_⟩
  · intro za zb
    have e1 : (swap Size a b).1 = b := by
      apply ext_getD _ _ (by rw [l1, hb])
      intro j hj
      by_cases hj2 : j < size Size
      · exact (hlow j hj2).1
      · have : j = Size - 1 := by omega
        rw [(hhigh j (by omega)).1, this, za, zb]
    have e2 : (swap Size a b).2 = a := by
      apply ext_getD _ _ (by rw [l2, ha])
      intro j hj
      by_cases hj2 : j < size Size
      · exact (hlow j hj2).2
      · have : j = Size - 1 := by omega
        rw [(hhigh j (by omega)).2, this, za, zb]
    rw [e1, e2]
    exact ⟨rfl, rfl⟩
  · apply Prod.ext
    · apply ext_getD _ _ (by rw [m1, ha])
      intro j hj
      by_cases hj2 : j < size Size
      · rw [(klow j hj2).1, (hlow j hj2).2]
      · rw [(khigh j (by omega)).1, (hhigh j (by omega)).1]
    · apply ext_getD _ _ (by rw [m2, hb])
      intro j hj
      by_cases hj2 : j < size Size
      · rw [(klow j hj2).2, (hlow j hj2).1]
      · rw [(khigh j (by omega)).2, (hhigh j (by omega)).2]

/-- C19 at a concrete input: "ab" and "xyz" in capacity-4 strings. -/
theorem swap_spec_witness :
    (1 ≤ 4 ∧ 4 < 4294967296 ∧ ([97, 98, 0, 0] : List CharT).length = 4 ∧
      ([120, 121, 122, 0] : List CharT).length = 4) ∧
    swap 4 [97, 98, 0, 0] [120, 121, 122, 0] = ([120, 121, 122, 0], [97, 98, 0, 0]) ∧
    (([97, 98, 0, 0] : List CharT).getD (4 - 1) 0 = 0 →
      ([120, 121, 122, 0] : List CharT).getD (4 - 1) 0 = 0 →
      logical (swap 4 [97, 98, 0, 0] [120, 121, 122, 0]).1 = logical [120, 121, 122, 0] ∧
      logical (swap 4 [97, 98, 0, 0] [120, 121, 122, 0]).2 = logical [97, 98, 0, 0]) ∧
    swap 4 (swap 4 [97, 98, 0, 0] [120, 121, 122, 0]).1
        (swap 4 [97, 98, 0, 0] [120, 121, 122, 0]).2
      = ([97, 98, 0, 0], [120, 121, 122, 0]) :=
  ⟨⟨by decide, by decide, by decide, by decide⟩, by decide,
    (swap_spec 4 [97, 98, 0, 0] [120, 121, 122, 0]
      (by decide) (by decide) (by decide) (by decide)).2.2.2.1,
    (swap_spec 4 [97, 98, 0, 0] [120, 121, 122, 0]
      (by decide) (by decide) (by decide) (by decide)).2.2.2.2⟩

/-- C20: `operator==` on buffers of the same capacity is transitive whatever
the buffers hold: if `a == b` and `b == c` are true then `a == c` is true. -/
theorem operator_eq_trans (Size : Nat) (a b c : List CharT)
    (hab : operator_eq Size a b = true) (hbc : operator_eq Size b c = true) :
    operator_eq Size a c = true :=
  operator_eq_loop_trans a b c _ _ hab hbc

/-- C20 at a concrete input: three capacity-4 buffers that agree up to their
first terminator and differ in the terminator slot. -/
theorem operator_eq_trans_witness :
    operator_eq 4 [97, 98, 0, 9] [97, 98, 0, 7] = true ∧
    operator_eq 4 [97, 98, 0, 7] [97, 98, 0, 5] = true ∧
    operator_eq 4 [97, 98, 0, 9] [97, 98, 0, 5] = true :=
  ⟨by decide, by decide,
    operator_eq_trans 4 [97, 98, 0, 9] [97, 98, 0, 7] [97, 98, 0, 5] (by decide) (by decide)⟩

/-! ## `empty()` -/

/-- The default constructor leaves `Size` terminators, whatever the storage
held. -/
theorem ctor_default_eq (Size : Nat) (buf : List CharT) (hb : buf.length = Size) :
    ctor_default Size buf = List.replicate Size 0 := by
  obtain ⟨klen, kset, _⟩ := set_loop_spec (fun _ => 0) buf 0 Size
  have hlen : (ctor_default Size buf).length = Size := klen.trans hb
  apply ext_getD _ _ (by rw [hlen, List.length_replicate])
  intro j hj
  rw [getD_replicate_zero]
  exact kset (by omega) j (Nat.zero_le _) (by omega)

/-- The comparison against the all-zero string that `empty()` runs only looks
at unit 0: it is true when the loop does not run (`size() = 0`) or unit 0 is
the terminator, and false otherwise. -/
theorem empty_eq_head (Size : Nat) (buf : List CharT) :
    empty Size buf = decide (size Size = 0 ∨ buf.getD 0 0 = 0) := by
  have hz : ctor_default Size (List.replicate Size 0) = List.replicate Size 0 :=
    ctor_default_eq Size _ (List.length_replicate _ _)
  unfold empty operator_eq
  rw [hz]
  cases hs : size Size - 0 with
  | zero =>
    have : size Size = 0 := by omega
    simp [operator_eq.loop, this]
  | succ n =>
    have hne : size Size ≠ 0 := by omega
    simp only [operator_eq.loop, getD_replicate_zero]
    by_cases h0 : buf.getD 0 0 = 0
    · rw [if_neg (not_not.mpr h0), if_pos h0]
      exact (decide_eq_true (Or.inr h0)).symm
    · rw [if_pos h0]
      exact (decide_eq_false (fun h => h.elim hne h0)).symm

/-- The logical content of a buffer that is not empty is empty exactly when
unit 0 is the terminator. -/
theorem logical_eq_nil_iff (buf : List CharT) (h : 1 ≤ buf.length) :
    logical buf = [] ↔ buf.getD 0 0 = 0 := by
  cases buf with
  | nil => simp at h
  | cons x t =>
    by_cases hx : x = 0
    · subst hx; simp [logical_cons_zero]
    · rw [logical_cons_ne x t hx]
      simp [hx]

/-- C21: `empty()` on a string of capacity `Size`.  When the terminator slot
`Size - 1` holds the terminator, `empty()` returns true exactly when the
logical content is empty, that is exactly when the conversion to a growable
string is the empty string.  In particular `empty()` is true for a
default-constructed string (storage of any prior content) and after `clear()`,
and false after constructing from a non-empty null-terminated source shorter
than `Size`. -/
theorem empty_spec (Size : Nat) (buf : List CharT)
    (hS : 1 ≤ Size) (hS2 : Size < 4294967296) (hb : buf.length = Size) :
    (terminated Size buf →
      (empty Size buf = true ↔ logical buf = []) ∧
      (empty Size buf = true ↔ operator_string buf = some [])) ∧
    empty Size (ctor_default Size buf) = true ∧
    empty Size (clear Size buf) = true ∧
    (∀ s rest : List CharT, 1 ≤ s.length → s.length < Size → (∀ c ∈ s, c ≠ 0) →
      ∃ r, ctor_cstr Size buf (s ++ 0 :: rest) = some r ∧ empty Size r = false) := by
  have hsize := size_eq Size hS hS2
  refine ⟨?_, ?_, ?_, ?_⟩
  · intro hterm
    have hmem : 0 ∈ buf := by
      have := getD_mem buf (Size - 1) (by omega)
      rwa [hterm] at this
    have h1 : empty Size buf = true ↔ logical buf = [] := by
      rw [empty_eq_head, logical_eq_nil_iff buf (by omega), decide_eq_true_iff]
      constructor
      · rintro (h | h)
        · have e : Size - 1 = 0 := by omega
          have ht : buf.getD (Size - 1) 0 = 0 := hterm
          rw [e] at ht
          exact ht
        · exact h
      · exact fun h => Or.inr h
    refine ⟨h1, ?_⟩
    rw [h1]
    unfold operator_string
    rw [string_of_cstr_eq_logical buf hmem]
    constructor
    · intro h; rw [h]
    · intro h; exact Option.some.inj h
  · rw [empty_eq_head, decide_eq_true_iff, ctor_default_eq Size buf hb, getD_replicate_zero]
    exact Or.inr rfl
  · rw [empty_eq_head, decide_eq_true_iff]
    by_cases h0 : size Size = 0
    · exact Or.inl h0
    · right
      exact (set_loop_spec (fun _ => 0) buf 0 (size Size)).2.1 (by omega) 0 (Nat.le_refl _)
        (by omega)
  · intro s rest hs1 hs2 hnz
    obtain ⟨r, hr, _, rpre, _, _, _⟩ :=
      ctor_cstr_loop_spec s rest hnz Size 0 buf (Nat.zero_le _) (by omega) (by omega)
    refine ⟨r, hr, ?_⟩
    have h0 : r.getD 0 0 ≠ 0 := by
      rw [rpre 0 (Nat.le_refl _) (by omega)]
      exact hnz _ (getD_mem s 0 (by omega))
    rw [empty_eq_head]
    exact decide_eq_false (fun h => h.elim (by omega) h0)

/-- C21 at concrete inputs: a capacity-8 string holding "hello" is not
empty, it is empty after `clear()`, and a string built from "hi" is not
empty. -/
theorem empty_spec_witness :
    (1 ≤ 8 ∧ 8 < 4294967296 ∧ ([104, 101, 108, 108, 111, 0, 0, 0] : List CharT).length = 8) ∧
    (terminated 8 [104, 101, 108, 108, 111, 0, 0, 0] →
      (empty 8 [104, 101, 108, 108, 111, 0, 0, 0] = true ↔
        logical [104, 101, 108, 108, 111, 0, 0, 0] = []) ∧
      (empty 8 [104, 101, 108, 108, 111, 0, 0, 0] = true ↔
        operator_string [104, 101, 108, 108, 111, 0, 0, 0] = some [])) ∧
    empty 8 (ctor_default 8 [104, 101, 108, 108, 111, 0, 0, 0]) = true ∧
    empty 8 (clear 8 [104, 101, 108, 108, 111, 0, 0, 0]) = true ∧
    (∀ s rest : List CharT, 1 ≤ s.length → s.length < 8 → (∀ c ∈ s, c ≠ 0) →
      ∃ r, ctor_cstr 8 [104, 101, 108, 108, 111, 0, 0, 0] (s ++ 0 :: rest) = some r ∧
        empty 8 r = false) :=
  ⟨⟨by decide, by decide, by decide⟩,
    empty_spec 8 [104, 101, 108, 108, 111, 0, 0, 0] (by decide) (by decide) (by decide)⟩

end FixedString
